import Mathlib

/-
  Verification of the quantbt simulation core: order matching (simulated
  broker), position/cash accounting, the multi-instrument bar synchronizer,
  and the performance tracker.

  Conventions of the embedding:
  * Python floats are modelled as exact rationals (ℚ); `math.sqrt` (used only
    by the Sharpe/Sortino ratios) is kept abstract as a function parameter.
  * Python dicts are modelled as association lists with dict-update semantics
    (replace in place, else append); `heapq` heaps are modelled as lists kept
    sorted by the heap key.
  * Mutating methods become functions from state to state; fill notifications
    (`_notify_fill`) are returned as an explicit list of (order, fill) events.
  * Nondeterministic fields (uuid4 fill ids, wall-clock timestamps) are not
    modelled; no claim mentions them.
-/

/-- One OHLCV bar (quantbt/data/bar.py). The `open` field is named `opn`
because `open` is a Lean keyword. -/
structure Bar where
  timestamp : Int
  opn : ℚ
  high : ℚ
  low : ℚ
  close : ℚ
  volume : ℚ
  symbol : String
deriving DecidableEq, Repr

/-- Order side (quantbt/orders/model.py, `Side`). -/
inductive Side where
  | buy
  | sell
deriving DecidableEq, Repr

/-- The `.value` of the Python `str`-enum `Side`. -/
def Side.value : Side → String
  | .buy => "buy"
  | .sell => "sell"

/-- Order type (quantbt/orders/model.py, `OrderType`). -/
inductive OrderType where
  | market
  | limit
deriving DecidableEq, Repr

/-- Order status (quantbt/orders/model.py, `OrderStatus`). -/
inductive OrderStatus where
  | pending
  | accepted
  | filled
  | partFilled
  | rejected
  | cancelled
deriving DecidableEq, Repr

/-- Time in force (quantbt/orders/model.py, `TimeInForce`). -/
inductive TimeInForce where
  | day
  | gtc
  | ioc
deriving DecidableEq, Repr

/-- An order (quantbt/orders/model.py, `Order`); `created_at` (wall clock)
is not modelled. -/
structure Order where
  cl_ord_id : String
  symbol : String
  side : Side
  quantity : ℚ
  order_type : OrderType := .market
  limit_price : Option ℚ := none
  time_in_force : TimeInForce := .day
  strategy_id : String := ""
  status : OrderStatus := .pending
  order_id : Option String := none
deriving DecidableEq, Repr

/-- A fill (quantbt/orders/model.py, `Fill`); the uuid `fill_id` is modelled
as the empty string and the wall-clock `timestamp` is not modelled. -/
structure Fill where
  fill_id : String
  order_id : String
  cl_ord_id : String
  fill_price : ℚ
  fill_quantity : ℚ
  remaining_quantity : ℚ
  commission : ℚ := 0
deriving DecidableEq, Repr

/-- A per-symbol position (quantbt/portfolio/portfolio.py, `Position`). -/
structure Position where
  symbol : String
  quantity : ℚ := 0
  avg_price : ℚ := 0
  realized_pnl : ℚ := 0
  cost_basis : ℚ := 0
deriving DecidableEq, Repr

/-- `Position.apply_fill` (portfolio.py lines 14-56), translated branch by
branch; `side` is a Python `str`, every value other than `"buy"` is the sell
branch. -/
def Position.apply_fill (p : Position) (side : String) (fill_qty fill_price : ℚ) :
    Position :=
  if side = "buy" then
    if p.quantity ≥ 0 then
      -- Adding to long or opening long
      let cost_basis := p.cost_basis + fill_qty * fill_price
      let quantity := p.quantity + fill_qty
      { p with cost_basis := cost_basis, quantity := quantity,
               avg_price := if quantity ≠ 0 then cost_basis / quantity else 0 }
    else
      -- Closing short
      let realized_pnl := p.realized_pnl + fill_qty * (p.avg_price - fill_price)
      let quantity := p.quantity + fill_qty
      if quantity > 0 then
        -- Flipped to long
        { p with realized_pnl := realized_pnl, quantity := quantity,
                 avg_price := fill_price, cost_basis := quantity * fill_price }
      else if quantity = 0 then
        { p with realized_pnl := realized_pnl, quantity := quantity,
                 avg_price := 0, cost_basis := 0 }
      else
        { p with realized_pnl := realized_pnl, quantity := quantity,
                 cost_basis := |quantity| * p.avg_price }
  else
    if p.quantity > 0 then
      -- Closing long
      let realized_pnl := p.realized_pnl + fill_qty * (fill_price - p.avg_price)
      let quantity := p.quantity - fill_qty
      if quantity < 0 then
        -- Flipped to short
        { p with realized_pnl := realized_pnl, quantity := quantity,
                 avg_price := fill_price, cost_basis := |quantity| * fill_price }
      else if quantity = 0 then
        { p with realized_pnl := realized_pnl, quantity := quantity,
                 avg_price := 0, cost_basis := 0 }
      else
        { p with realized_pnl := realized_pnl, quantity := quantity,
                 cost_basis := quantity * p.avg_price }
    else
      -- Adding to short or opening short
      let cost_basis := p.cost_basis + fill_qty * fill_price
      let quantity := p.quantity - fill_qty
      { p with cost_basis := cost_basis, quantity := quantity,
               avg_price := if quantity ≠ 0 then cost_basis / |quantity| else 0 }

/-- `Position.market_value` (portfolio.py). -/
def Position.market_value (p : Position) : ℚ := p.quantity * p.avg_price

/-- Dict assignment `d[k] = v` on an association list: replace in place if the
key exists, else append. -/
def setAssoc {α : Type} (ps : List (String × α)) (s : String) (v : α) :
    List (String × α) :=
  match ps with
  | [] => [(s, v)]
  | (k, x) :: rest => if k = s then (k, v) :: rest else (k, x) :: setAssoc rest s v

/-- The portfolio ledger (quantbt/portfolio/portfolio.py, `Portfolio`);
`positions` is the dict symbol → Position. -/
structure Portfolio where
  initial_cash : ℚ
  cash : ℚ
  positions : List (String × Position)
  total_commission : ℚ
deriving DecidableEq, Repr

/-- `Portfolio.__init__`. -/
def Portfolio.init (initial_cash : ℚ) : Portfolio :=
  { initial_cash := initial_cash, cash := initial_cash, positions := [],
    total_commission := 0 }

/-- `Portfolio.update_position` (portfolio.py lines 74-86): apply the fill to
the named position (creating a fresh one if absent), then update cash and
total commission. -/
def Portfolio.update_position (pf : Portfolio) (symbol side : String)
    (quantity price : ℚ) (commission : ℚ := 0) : Portfolio :=
  let pos := (pf.positions.lookup symbol).getD { symbol := symbol }
  let pos := pos.apply_fill side quantity price
  let cash := if side = "buy" then pf.cash - (quantity * price + commission)
              else pf.cash + (quantity * price - commission)
  { pf with positions := setAssoc pf.positions symbol pos, cash := cash,
            total_commission := pf.total_commission + commission }

/-- `Portfolio.mark_to_market` (portfolio.py lines 91-97): cash plus each
position valued at the market price, falling back to its average price. -/
def Portfolio.mark_to_market (pf : Portfolio) (market_prices : List (String × ℚ)) :
    ℚ :=
  pf.cash + pf.positions.foldl
    (fun acc sp => acc + sp.2.quantity * ((market_prices.lookup sp.1).getD sp.2.avg_price)) 0

/-- `Portfolio.total_equity` (portfolio.py lines 99-104): cash plus positions
at average cost. -/
def Portfolio.total_equity (pf : Portfolio) : ℚ :=
  pf.cash + pf.positions.foldl (fun acc sp => acc + sp.2.quantity * sp.2.avg_price) 0

/-- One `update_position` call, as data (symbol, side, quantity, price,
commission). -/
structure FillEvent where
  symbol : String
  side : String
  quantity : ℚ
  price : ℚ
  commission : ℚ
deriving DecidableEq, Repr

/-- Apply a sequence of fills to a portfolio via `update_position`. -/
def Portfolio.applyFills (pf : Portfolio) (fs : List FillEvent) : Portfolio :=
  fs.foldl (fun pf f => pf.update_position f.symbol f.side f.quantity f.price f.commission) pf

/-- Apply a sequence of fills (side, quantity, price) to a position via
`apply_fill`. -/
def Position.applyFills (p : Position) (fs : List (String × ℚ × ℚ)) : Position :=
  fs.foldl (fun p f => p.apply_fill f.1 f.2.1 f.2.2) p

/-- The spec's position invariant (§3): `avg_price == 0` iff `quantity == 0`,
and `cost_basis == |quantity| * avg_price`. -/
def positionInvariant (p : Position) : Prop :=
  (p.avg_price = 0 ↔ p.quantity = 0) ∧ p.cost_basis = |p.quantity| * p.avg_price

instance (p : Position) : Decidable (positionInvariant p) := by
  unfold positionInvariant; infer_instance

/-- State of the simulated broker (quantbt/broker/simulated.py,
`SimulatedBroker.__init__`). -/
structure SimulatedBroker where
  commission_rate : ℚ := 1 / 1000
  slippage_bps : ℚ := 0
  pending_orders : List Order := []
  current_bar : Option Bar := none
  current_bars : List (String × Bar) := []
  order_seq : Nat := 0
deriving DecidableEq, Repr

/-- `SimulatedBroker._fill_order` (simulated.py lines 66-83): apply slippage,
charge commission, mark the order filled, and produce the fill that is
broadcast by `_notify_fill`. -/
def SimulatedBroker.fill_order (br : SimulatedBroker) (order : Order) (price : ℚ) :
    Order × Fill :=
  let price :=
    if br.slippage_bps ≠ 0 then
      if order.side.value = "buy" then price * (1 + br.slippage_bps / 10000)
      else price * (1 - br.slippage_bps / 10000)
    else price
  let commission := price * order.quantity * br.commission_rate
  ({ order with status := .filled },
   { fill_id := "", order_id := order.order_id.getD "", cl_ord_id := order.cl_ord_id,
     fill_price := price, fill_quantity := order.quantity, remaining_quantity := 0,
     commission := commission })

/-- The loop body of `SimulatedBroker._process_pending_orders` (simulated.py
lines 47-64) over the pending list, against the current bar `cb`. Returns the
new pending list and the emitted (order, fill) notifications, in processing
order. A limit order whose `limit_price` is `None` would raise a `TypeError`
in Python (comparison with `None`); that case is unreachable for well-formed
orders and is modelled as the order staying queued. -/
def processOrders (br : SimulatedBroker) (cb : Bar) :
    List Order → List Order × List (Order × Fill)
  | [] => ([], [])
  | order :: rest =>
    if order.status ≠ OrderStatus.accepted then
      processOrders br cb rest
    else
      match order.order_type with
      | .market =>
        let r := processOrders br cb rest
        (r.1, br.fill_order order cb.close :: r.2)
      | .limit =>
        match order.limit_price with
        | some lp =>
          if (order.side.value = "buy" ∧ cb.low ≤ lp) ∨
             (order.side.value = "sell" ∧ cb.high ≥ lp) then
            let r := processOrders br cb rest
            (r.1, br.fill_order order lp :: r.2)
          else
            let r := processOrders br cb rest
            (order :: r.1, r.2)
        | none =>
          let r := processOrders br cb rest
          (order :: r.1, r.2)

/-- `SimulatedBroker._process_pending_orders` (simulated.py lines 47-64). -/
def SimulatedBroker.process_pending_orders (br : SimulatedBroker) :
    SimulatedBroker × List (Order × Fill) :=
  match br.current_bar with
  | none => (br, [])
  | some cb =>
    let r := processOrders br cb br.pending_orders
    ({ br with pending_orders := r.1 }, r.2)

/-- `SimulatedBroker.set_current_bar` (simulated.py lines 22-25): record the
bar (globally and per symbol), then re-process the pending orders. -/
def SimulatedBroker.set_current_bar (br : SimulatedBroker) (bar : Bar) :
    SimulatedBroker × List (Order × Fill) :=
  ({ br with current_bar := some bar,
             current_bars := setAssoc br.current_bars bar.symbol bar }).process_pending_orders

/-- `SimulatedBroker.submit_order` (simulated.py lines 27-35); the zero-padded
broker id string `f"SIM-{seq:05d}"` is modelled without padding. -/
def SimulatedBroker.submit_order (br : SimulatedBroker) (order : Order) :
    SimulatedBroker × List (Order × Fill) :=
  let seq := br.order_seq + 1
  let order := { order with order_id := some ("SIM-" ++ toString seq),
                            status := OrderStatus.accepted }
  match br.current_bar with
  | some cb =>
    if order.order_type = OrderType.market then
      ({ br with order_seq := seq }, [br.fill_order order cb.close])
    else
      ({ br with order_seq := seq, pending_orders := br.pending_orders ++ [order] }, [])
  | none =>
    ({ br with order_seq := seq, pending_orders := br.pending_orders ++ [order] }, [])

/-- The loop of `SimulatedBroker.cancel_order` (simulated.py lines 40-45):
cancel the first accepted order with the given client id, if any. -/
def cancelFirst (cl_ord_id : String) : List Order → Bool × List Order
  | [] => (false, [])
  | o :: rest =>
    if o.cl_ord_id = cl_ord_id ∧ o.status = OrderStatus.accepted then
      (true, { o with status := OrderStatus.cancelled } :: rest)
    else
      let r := cancelFirst cl_ord_id rest
      (r.1, o :: r.2)

/-- `SimulatedBroker.cancel_order` (simulated.py lines 40-45). -/
def SimulatedBroker.cancel_order (br : SimulatedBroker) (cl_ord_id : String) :
    Bool × SimulatedBroker :=
  let r := cancelFirst cl_ord_id br.pending_orders
  (r.1, { br with pending_orders := r.2 })

/-- `SimulatedBroker.get_open_orders` (simulated.py lines 37-38). -/
def SimulatedBroker.get_open_orders (br : SimulatedBroker) : List Order :=
  br.pending_orders.filter (fun o => o.status == OrderStatus.accepted)

/-- Does the bar trigger this limit order (simulated.py lines 57-58)? False
for a limit order with no limit price (which would be a `TypeError` in
Python). -/
def limitTriggered (cb : Bar) (o : Order) : Bool :=
  match o.limit_price with
  | some lp => (o.side.value == "buy" && decide (cb.low ≤ lp)) ||
               (o.side.value == "sell" && decide (cb.high ≥ lp))
  | none => false

/-- Is this pending order kept in the queue by `_process_pending_orders`? -/
def keepsQueued (cb : Bar) (o : Order) : Bool :=
  o.status == OrderStatus.accepted && o.order_type == OrderType.limit &&
    !(limitTriggered cb o)

/-- Is this pending order filled by `_process_pending_orders`? -/
def willFill (cb : Bar) (o : Order) : Bool :=
  o.status == OrderStatus.accepted &&
    (o.order_type == OrderType.market || limitTriggered cb o)

/-- The price at which a pending order is matched against `cb` (before
slippage): close for market orders, the limit price for limit orders. -/
def matchPrice (cb : Bar) (o : Order) : ℚ :=
  match o.order_type with
  | .market => cb.close
  | .limit => o.limit_price.getD 0

/-- One point of the equity curve (quantbt/portfolio/metrics.py,
`EquityPoint`). -/
structure EquityPoint where
  timestamp : Int
  equity : ℚ
  cash : ℚ
  positions_value : ℚ
  drawdown : ℚ
deriving DecidableEq, Repr

/-- State of the performance tracker (metrics.py,
`PerformanceTracker.__init__`). -/
structure PerformanceTracker where
  initial_cash : ℚ
  periods_per_year : ℚ
  equity_curve : List EquityPoint
  peak_equity : ℚ
  returns : List ℚ
  prev_equity : ℚ
deriving DecidableEq, Repr

/-- `PerformanceTracker.__init__`. -/
def PerformanceTracker.init (initial_cash : ℚ := 100000)
    (periods_per_year : ℚ := 252) : PerformanceTracker :=
  { initial_cash := initial_cash, periods_per_year := periods_per_year,
    equity_curve := [], peak_equity := initial_cash, returns := [],
    prev_equity := initial_cash }

/-- `PerformanceTracker.record` (metrics.py lines 29-51). -/
def PerformanceTracker.record (t : PerformanceTracker) (timestamp : Int)
    (equity cash positions_value : ℚ) : PerformanceTracker :=
  let peak := if equity > t.peak_equity then equity else t.peak_equity
  let drawdown := if peak > 0 then (peak - equity) / peak else 0
  let point : EquityPoint :=
    { timestamp := timestamp, equity := equity, cash := cash,
      positions_value := positions_value, drawdown := drawdown }
  let returns :=
    if t.prev_equity > 0 then t.returns ++ [(equity - t.prev_equity) / t.prev_equity]
    else t.returns
  { t with equity_curve := t.equity_curve ++ [point], peak_equity := peak,
           returns := returns, prev_equity := equity }

/-- Apply a sequence of `record` calls (timestamp, equity, cash,
positions value). -/
def PerformanceTracker.recordAll (t : PerformanceTracker)
    (calls : List (Int × ℚ × ℚ × ℚ)) : PerformanceTracker :=
  calls.foldl (fun t c => t.record c.1 c.2.1 c.2.2.1 c.2.2.2) t

/-- `PerformanceTracker.total_return` (metrics.py lines 57-61). -/
def PerformanceTracker.total_return (t : PerformanceTracker) : ℚ :=
  match t.equity_curve.getLast? with
  | none => 0
  | some p => (p.equity - t.initial_cash) / t.initial_cash

/-- `PerformanceTracker.max_drawdown` (metrics.py lines 63-66): the maximum
recorded drawdown, 0 on an empty curve. -/
def PerformanceTracker.max_drawdown (t : PerformanceTracker) : ℚ :=
  match t.equity_curve.map EquityPoint.drawdown with
  | [] => 0
  | d :: ds => ds.foldl max d

/-- `PerformanceTracker.sharpe_ratio` (metrics.py lines 68-84) with the
default `periods_per_year = self.periods_per_year`; `math.sqrt` is the
abstract parameter `sqrt`. -/
def PerformanceTracker.sharpe_ratio (sqrt : ℚ → ℚ) (t : PerformanceTracker)
    (risk_free_rate : ℚ := 0) : ℚ :=
  if t.returns.length < 2 then 0
  else
    let n : ℚ := (t.returns.length : ℚ)
    let mean_ret := t.returns.sum / n
    let excess := mean_ret - risk_free_rate / t.periods_per_year
    let variance := (t.returns.map (fun r => (r - mean_ret) ^ 2)).sum / (n - 1)
    let std := sqrt variance
    if std = 0 then 0 else (excess / std) * sqrt t.periods_per_year

/-- Result of a metric that may be `float("inf")` (the Sortino ratio). -/
inductive MetricValue where
  | val (q : ℚ)
  | inf
deriving DecidableEq, Repr

/-- `PerformanceTracker.sortino_ratio` (metrics.py lines 86-106) with the
default `periods_per_year`; `math.sqrt` abstract as `sqrt`. -/
def PerformanceTracker.sortino_ratio (sqrt : ℚ → ℚ) (t : PerformanceTracker)
    (risk_free_rate : ℚ := 0) : MetricValue :=
  if t.returns.length < 2 then .val 0
  else
    let n : ℚ := (t.returns.length : ℚ)
    let mean_ret := t.returns.sum / n
    let excess := mean_ret - risk_free_rate / t.periods_per_year
    let downside := t.returns.filter (fun r => decide (r < 0))
    if downside.isEmpty then (if excess > 0 then .inf else .val 0)
    else
      let downside_var := (downside.map (fun r => r ^ 2)).sum / (downside.length : ℚ)
      let downside_std := sqrt downside_var
      if downside_std = 0 then .val 0
      else .val ((excess / downside_std) * sqrt t.periods_per_year)

/-- `PerformanceTracker.win_rate` (metrics.py lines 108-112). -/
def PerformanceTracker.win_rate (t : PerformanceTracker) : ℚ :=
  if t.returns.isEmpty then 0
  else ((t.returns.filter (fun r => decide (0 < r))).length : ℚ) / (t.returns.length : ℚ)

/-- `PerformanceTracker.summary` (metrics.py lines 114-122), as the ordered
key/value list of the returned dict. -/
def PerformanceTracker.summary (sqrt : ℚ → ℚ) (t : PerformanceTracker) :
    List (String × MetricValue) :=
  [("total_return", .val t.total_return),
   ("max_drawdown", .val t.max_drawdown),
   ("sharpe_ratio", .val (PerformanceTracker.sharpe_ratio sqrt t)),
   ("sortino_ratio", PerformanceTracker.sortino_ratio sqrt t),
   ("win_rate", .val t.win_rate),
   ("num_bars", .val (t.equity_curve.length : ℚ))]

/-- One heap entry `(timestamp, symbol, bar)` of `iter_bars_sync`
(quantbt/data/base.py line 59). Python compares these tuples
lexicographically; with distinct symbols the Bar component is never
compared. -/
structure SyncEntry where
  ts : Int
  symbol : String
  bar : Bar
deriving DecidableEq, Repr

/-- The tuple order `(timestamp, symbol) ≤ (timestamp, symbol)` used by the
heap. -/
def entryLE (a b : SyncEntry) : Prop :=
  a.ts < b.ts ∨ (a.ts = b.ts ∧ a.symbol ≤ b.symbol)

instance : DecidableRel entryLE := fun a b => by unfold entryLE; infer_instance

instance : IsTotal SyncEntry entryLE := ⟨by
  intro a b
  unfold entryLE
  rcases lt_trichotomy a.ts b.ts with h | h | h
  · exact Or.inl (Or.inl h)
  · rcases le_total a.symbol b.symbol with hs | hs
    · exact Or.inl (Or.inr ⟨h, hs⟩)
    · exact Or.inr (Or.inr ⟨h.symm, hs⟩)
  · exact Or.inr (Or.inl h)⟩

instance : IsTrans SyncEntry entryLE := ⟨by
  intro a b c hab hbc
  unfold entryLE at *
  rcases hab with h1 | ⟨h1, h1s⟩ <;> rcases hbc with h2 | ⟨h2, h2s⟩
  · exact Or.inl (h1.trans h2)
  · exact Or.inl (h2 ▸ h1)
  · exact Or.inl (h1 ▸ h2)
  · exact Or.inr ⟨h1.trans h2, h1s.trans h2s⟩⟩

/-- Total number of bars still inside the per-symbol iterators (termination
measure only). -/
def itersLen (iters : List (String × List Bar)) : Nat :=
  (iters.map (fun p => p.2.length)).sum

/-- `next(iterators[symbol], None)` (base.py line 73): the next bar of the
named iterator, if any. -/
def nextBar (iters : List (String × List Bar)) (s : String) : Option Bar :=
  (iters.lookup s).bind List.head?

/-- The state change of `next(iterators[symbol], None)`: the named iterator
loses its head. -/
def advanceIters (iters : List (String × List Bar)) (s : String) :
    List (String × List Bar) :=
  iters.map (fun p => if p.1 = s then (p.1, p.2.tail) else p)

theorem itersLen_advance_le (iters : List (String × List Bar)) (s : String) :
    itersLen (advanceIters iters s) ≤ itersLen iters := by
  induction iters with
  | nil => simp [advanceIters, itersLen]
  | cons p rest ih =>
    simp only [advanceIters, itersLen, List.map_cons, List.sum_cons] at *
    split
    · exact Nat.add_le_add (by cases p.2 <;> simp) ih
    · exact Nat.add_le_add le_rfl ih

theorem nextBar_cons (k : String) (l : List Bar) (rest : List (String × List Bar))
    (s : String) :
    nextBar ((k, l) :: rest) s = if k = s then l.head? else nextBar rest s := by
  by_cases hk : k = s
  · subst hk; simp [nextBar, List.lookup]
  · have h2 : (s == k) = false := by simp [Ne.symm hk]
    simp [nextBar, List.lookup, h2, hk]

theorem itersLen_advance_lt (iters : List (String × List Bar)) (s : String) (b : Bar)
    (h : nextBar iters s = some b) :
    itersLen (advanceIters iters s) < itersLen iters := by
  induction iters with
  | nil => simp [nextBar] at h
  | cons p rest ih =>
    obtain ⟨k, l⟩ := p
    rw [nextBar_cons] at h
    by_cases hk : k = s
    · rw [if_pos hk] at h
      have h1 : l.tail.length < l.length := by
        cases hl : l with
        | nil => rw [hl] at h; simp at h
        | cons x xs => simp [hl]
      simp only [advanceIters, itersLen, List.map_cons, List.sum_cons, if_pos hk]
      have h2 := itersLen_advance_le rest s
      simp only [advanceIters, itersLen] at h2
      omega
    · rw [if_neg hk] at h
      have := ih h
      simp only [advanceIters, itersLen, List.map_cons, List.sum_cons, if_neg hk] at *
      omega

/-- The inner `while heap and heap[0][0] == ts` loop of `iter_bars_sync`
(base.py lines 70-75): pop every entry at timestamp `ts` into the event (in
pop order), pulling each popped symbol's next bar into the heap. The `heapq`
heap is modelled as a list sorted by `entryLE`; `heappush` is ordered
insertion. Returns (event entries, heap, iterators). -/
def syncCollect (ts : Int) (heap : List SyncEntry) (iters : List (String × List Bar)) :
    List (String × Bar) × List SyncEntry × List (String × List Bar) :=
  match heap with
  | [] => ([], [], iters)
  | e :: rest =>
    if e.ts = ts then
      match _h : nextBar iters e.symbol with
      | some b =>
        let r := syncCollect ts (List.orderedInsert entryLE ⟨b.timestamp, e.symbol, b⟩ rest)
                   (advanceIters iters e.symbol)
        ((e.symbol, e.bar) :: r.1, r.2)
      | none =>
        let r := syncCollect ts rest (advanceIters iters e.symbol)
        ((e.symbol, e.bar) :: r.1, r.2)
    else ([], e :: rest, iters)
termination_by heap.length + itersLen iters
decreasing_by
  · simp only [List.orderedInsert_length, List.length_cons]
    have := itersLen_advance_lt iters e.symbol b _h
    omega
  · have := itersLen_advance_le iters e.symbol
    simp only [List.length_cons]
    omega

theorem syncCollect_nil (ts : Int) (iters : List (String × List Bar)) :
    syncCollect ts [] iters = ([], [], iters) := by
  rw [syncCollect]

theorem syncCollect_cons_some {ts : Int} {e : SyncEntry} {rest : List SyncEntry}
    {iters : List (String × List Bar)} {b : Bar} (hts : e.ts = ts)
    (hn : nextBar iters e.symbol = some b) :
    syncCollect ts (e :: rest) iters =
      ((e.symbol, e.bar) ::
        (syncCollect ts (List.orderedInsert entryLE ⟨b.timestamp, e.symbol, b⟩ rest)
          (advanceIters iters e.symbol)).1,
       (syncCollect ts (List.orderedInsert entryLE ⟨b.timestamp, e.symbol, b⟩ rest)
          (advanceIters iters e.symbol)).2) := by
  rw [syncCollect]
  simp only [if_pos hts]
  split
  · next b2 heq => rw [hn] at heq; injection heq with h2; subst h2; rfl
  · next heq => rw [hn] at heq; cases heq

theorem syncCollect_cons_none {ts : Int} {e : SyncEntry} {rest : List SyncEntry}
    {iters : List (String × List Bar)} (hts : e.ts = ts)
    (hn : nextBar iters e.symbol = none) :
    syncCollect ts (e :: rest) iters =
      ((e.symbol, e.bar) :: (syncCollect ts rest (advanceIters iters e.symbol)).1,
       (syncCollect ts rest (advanceIters iters e.symbol)).2) := by
  rw [syncCollect]
  simp only [if_pos hts]
  split
  · next b2 heq => rw [hn] at heq; cases heq
  · next heq => rfl

theorem syncCollect_cons_miss {ts : Int} {e : SyncEntry} {rest : List SyncEntry}
    {iters : List (String × List Bar)} (hts : ¬ e.ts = ts) :
    syncCollect ts (e :: rest) iters = ([], e :: rest, iters) := by
  rw [syncCollect]
  simp only [if_neg hts]

theorem syncCollect_measure_le (ts : Int) (heap : List SyncEntry)
    (iters : List (String × List Bar)) :
    (syncCollect ts heap iters).2.1.length + itersLen (syncCollect ts heap iters).2.2
      ≤ heap.length + itersLen iters := by
  induction heap, iters using syncCollect.induct ts with
  | case1 iters => simp [syncCollect_nil]
  | case2 iters e rest hts b hn ih =>
    rw [syncCollect_cons_some hts hn]
    have h1 := itersLen_advance_lt iters e.symbol b hn
    simp only [List.orderedInsert_length, List.length_cons] at *
    omega
  | case3 iters e rest hts hn ih =>
    rw [syncCollect_cons_none hts hn]
    have h1 := itersLen_advance_le iters e.symbol
    simp only [List.length_cons] at *
    omega
  | case4 iters e rest hts =>
    rw [syncCollect_cons_miss hts]

theorem syncCollect_measure_lt (ts : Int) (e : SyncEntry) (rest : List SyncEntry)
    (iters : List (String × List Bar)) (hts : e.ts = ts) :
    (syncCollect ts (e :: rest) iters).2.1.length +
      itersLen (syncCollect ts (e :: rest) iters).2.2 <
    (e :: rest).length + itersLen iters := by
  cases hn : nextBar iters e.symbol with
  | some b =>
    rw [syncCollect_cons_some hts hn]
    have h1 := syncCollect_measure_le ts
      (List.orderedInsert entryLE ⟨b.timestamp, e.symbol, b⟩ rest) (advanceIters iters e.symbol)
    have h2 := itersLen_advance_lt iters e.symbol b hn
    dsimp only
    simp only [List.orderedInsert_length, List.length_cons] at *
    omega
  | none =>
    rw [syncCollect_cons_none hts hn]
    have h1 := syncCollect_measure_le ts rest (advanceIters iters e.symbol)
    have h2 := itersLen_advance_le iters e.symbol
    dsimp only
    simp only [List.length_cons] at *
    omega

/-- The outer `while heap` loop of `iter_bars_sync` (base.py lines 67-76):
repeatedly emit one `(timestamp, {symbol: bar})` event per round. -/
def syncEmit (heap : List SyncEntry) (iters : List (String × List Bar)) :
    List (Int × List (String × Bar)) :=
  match heap with
  | [] => []
  | e :: rest =>
    let r := syncCollect e.ts (e :: rest) iters
    (e.ts, r.1) :: syncEmit r.2.1 r.2.2
termination_by heap.length + itersLen iters
decreasing_by
  exact syncCollect_measure_lt e.ts e rest iters rfl

theorem syncEmit_nil (iters : List (String × List Bar)) : syncEmit [] iters = [] := by
  rw [syncEmit]

theorem syncEmit_cons (e : SyncEntry) (rest : List SyncEntry)
    (iters : List (String × List Bar)) :
    syncEmit (e :: rest) iters =
      (e.ts, (syncCollect e.ts (e :: rest) iters).1) ::
        syncEmit (syncCollect e.ts (e :: rest) iters).2.1
          (syncCollect e.ts (e :: rest) iters).2.2 := by
  rw [syncEmit]

/-- `DataFeed.iter_bars_sync` (base.py lines 43-76) over already-fetched
per-instrument bar sequences `feeds` (symbol, bars): seed the heap with each
sequence's first bar (`heapify` modelled as sorting by the heap key), keep
the tails as the iterators, and run the merge loop. Events are
`(timestamp, assoc list symbol → bar)` in emission order. -/
def iter_bars_sync (feeds : List (String × List Bar)) :
    List (Int × List (String × Bar)) :=
  let seeds := feeds.filterMap
    (fun p => p.2.head?.map (fun b => (⟨b.timestamp, p.1, b⟩ : SyncEntry)))
  syncEmit (List.insertionSort entryLE seeds) (feeds.map (fun p => (p.1, p.2.tail)))

/-- The remaining bar stream of each heap entry: its seeded bar followed by
its iterator tail. Proof device relating the merge state back to sequences. -/
def syncStreams (heap : List SyncEntry) (iters : List (String × List Bar)) :
    List (String × List Bar) :=
  heap.map (fun e => (e.symbol, e.bar :: ((iters.lookup e.symbol).getD [])))

/-- Invariant of the merge state: the heap is sorted by the heap key and
holds at most one entry per symbol; each entry's key is its bar's timestamp;
each entry's remaining stream has strictly ascending timestamps. -/
structure SyncInv (heap : List SyncEntry) (iters : List (String × List Bar)) : Prop where
  sorted : heap.Sorted entryLE
  nodup : (heap.map SyncEntry.symbol).Nodup
  tsEq : ∀ e ∈ heap, e.ts = e.bar.timestamp
  asc : ∀ e ∈ heap, List.Sorted (· < ·)
    ((e.bar :: ((iters.lookup e.symbol).getD [])).map Bar.timestamp)

def ordC1x : Order :=
  { cl_ord_id := "o1", symbol := "AAA", side := Side.buy, quantity := 1,
    order_type := OrderType.limit, limit_price := some 100,
    status := OrderStatus.accepted, order_id := some "SIM-1" }

def brC1x : SimulatedBroker :=
  { commission_rate := 0, slippage_bps := 0, pending_orders := [ordC1x],
    current_bar := none, current_bars := [], order_seq := 1 }

def barC1x : Bar :=
  { timestamp := 0, opn := 99, high := 99, low := 99, close := 99, volume := 0,
    symbol := "BBB" }

def ordC1w : Order :=
  { cl_ord_id := "w1", symbol := "AAA", side := Side.buy, quantity := 2,
    order_type := OrderType.limit, limit_price := some 100,
    status := OrderStatus.accepted, order_id := some "SIM-1" }

def brC1w : SimulatedBroker :=
  { commission_rate := 1 / 1000, slippage_bps := 0, pending_orders := [ordC1w],
    current_bar := none, current_bars := [], order_seq := 1 }

def barC1w : Bar :=
  { timestamp := 0, opn := 101, high := 102, low := 99, close := 101, volume := 5,
    symbol := "AAA" }

def ordC8w : Order :=
  { cl_ord_id := "c1", symbol := "AAA", side := Side.sell, quantity := 1,
    order_type := OrderType.limit, limit_price := some 120,
    status := OrderStatus.accepted, order_id := some "SIM-1" }

def brC8w : SimulatedBroker :=
  { commission_rate := 0, slippage_bps := 0, pending_orders := [ordC8w],
    current_bar := none, current_bars := [], order_seq := 1 }

def feedsC4w : List (String × List Bar) :=
  [("A", [⟨1, 10, 10, 10, 10, 1, "A"⟩, ⟨2, 11, 11, 11, 11, 1, "A"⟩,
          ⟨3, 12, 12, 12, 12, 1, "A"⟩]),
   ("B", [⟨2, 20, 20, 20, 20, 1, "B"⟩, ⟨4, 21, 21, 21, 21, 1, "B"⟩])]

theorem entryLE_ts_le {a b : SyncEntry} (h : entryLE a b) : a.ts ≤ b.ts := by
  unfold entryLE at h
  rcases h with h | ⟨h, _⟩
  · exact le_of_lt h
  · exact le_of_eq h

theorem lookup_advanceIters (iters : List (String × List Bar)) (s s' : String) :
    (advanceIters iters s).lookup s' =
      if s' = s then (iters.lookup s').map List.tail else iters.lookup s' := by
  induction iters with
  | nil => simp [advanceIters, List.lookup]
  | cons p rest ih =>
    obtain ⟨k, l⟩ := p
    simp only [advanceIters, List.map_cons] at *
    by_cases hk : k = s
    · rw [if_pos hk]
      by_cases hs : s' = k
      · have hss : s' = s := hs.trans hk
        rw [if_pos hss]
        simp [List.lookup, hs]
      · have hss : ¬ s' = s := by rw [← hk]; exact hs
        rw [if_neg hss]
        have h2 : (s' == k) = false := by simp [hs]
        simp [List.lookup, h2, ih, if_neg hss]
    · rw [if_neg hk]
      by_cases hs : s' = k
      · subst hs
        simp [List.lookup, if_neg hk]
      · have h2 : (s' == k) = false := by simp [hs]
        simp [List.lookup, h2, ih]

theorem nextBar_eq_head (iters : List (String × List Bar)) (s : String) :
    nextBar iters s = ((iters.lookup s).getD []).head? := by
  unfold nextBar
  cases iters.lookup s <;> simp

theorem mem_syncStreams {heap : List SyncEntry} {iters : List (String × List Bar)}
    {s : String} {bl : List Bar} :
    (s, bl) ∈ syncStreams heap iters ↔
      ∃ e ∈ heap, e.symbol = s ∧ bl = e.bar :: ((iters.lookup s).getD []) := by
  simp only [syncStreams, List.mem_map, Prod.mk.injEq]
  constructor
  · rintro ⟨e, he, h1, h2⟩
    exact ⟨e, he, h1, by rw [← h2, h1]⟩
  · rintro ⟨e, he, h1, h2⟩
    exact ⟨e, he, h1, by rw [h2, h1]⟩

theorem syncStreams_fst_mem {heap : List SyncEntry} {iters : List (String × List Bar)}
    {s : String} {bl : List Bar} (h : (s, bl) ∈ syncStreams heap iters) :
    s ∈ heap.map SyncEntry.symbol := by
  rcases mem_syncStreams.mp h with ⟨e, he, h1, _⟩
  exact List.mem_map.mpr ⟨e, he, h1⟩

theorem syncStreams_congr {heap : List SyncEntry} {iters iters' : List (String × List Bar)}
    (h : ∀ e ∈ heap, iters'.lookup e.symbol = iters.lookup e.symbol) :
    syncStreams heap iters' = syncStreams heap iters := by
  unfold syncStreams
  exact List.map_congr_left (fun e he => by rw [h e he])

theorem syncCollect_spec (ts : Int) (heap : List SyncEntry)
    (iters : List (String × List Bar)) (inv : SyncInv heap iters)
    (hlb : ∀ e ∈ heap, ts ≤ e.ts) :
    (∀ s bb, (s, bb) ∈ (syncCollect ts heap iters).1 ↔
        ∃ e ∈ heap, e.symbol = s ∧ e.bar = bb ∧ e.ts = ts) ∧
    SyncInv (syncCollect ts heap iters).2.1 (syncCollect ts heap iters).2.2 ∧
    (∀ e ∈ (syncCollect ts heap iters).2.1, ts < e.ts) ∧
    (∀ s bl, (s, bl) ∈
        syncStreams (syncCollect ts heap iters).2.1 (syncCollect ts heap iters).2.2 ↔
      ((s, bl) ∈ syncStreams heap iters ∧ ∀ b0 ∈ bl.head?, b0.timestamp ≠ ts) ∨
      (∃ b0, (s, b0 :: bl) ∈ syncStreams heap iters ∧ b0.timestamp = ts ∧ bl ≠ [])) := by
  induction heap, iters using syncCollect.induct ts with
  | case1 iters =>
    refine ⟨?_, ?_, ?_, ?_⟩
    · intro s bb
      simp [syncCollect_nil]
    · rw [syncCollect_nil]
      exact ⟨List.sorted_nil, List.nodup_nil, by simp, by simp⟩
    · intro e he
      rw [syncCollect_nil] at he
      simp at he
    · intro s bl
      simp [syncCollect_nil, syncStreams]
  | case2 iters e rest hts b hn ih =>
    have hsc := inv.sorted
    rw [List.sorted_cons] at hsc
    have hnd := inv.nodup
    rw [List.map_cons, List.nodup_cons] at hnd
    have htsE : e.bar.timestamp = ts := by
      have h1 := inv.tsEq e (by simp)
      omega
    have hlk : ∃ l, iters.lookup e.symbol = some l ∧ l.head? = some b := by
      have h := hn
      rw [nextBar] at h
      cases hl : iters.lookup e.symbol with
      | none => rw [hl] at h; simp at h
      | some l =>
        rw [hl] at h
        exact ⟨l, rfl, h⟩
    obtain ⟨l0, hl0, hl0h⟩ := hlk
    have hl0c : l0 = b :: l0.tail := by
      cases l0 with
      | nil => simp at hl0h
      | cons x xs =>
        simp only [List.head?_cons, Option.some.injEq] at hl0h
        rw [hl0h]
        rfl
    have hgetD : (iters.lookup e.symbol).getD [] = l0 := by rw [hl0]; rfl
    have hlk1 : ∀ s2, s2 ≠ e.symbol →
        (advanceIters iters e.symbol).lookup s2 = iters.lookup s2 := by
      intro s2 hs2
      rw [lookup_advanceIters, if_neg hs2]
    have hlkE : (advanceIters iters e.symbol).lookup e.symbol = some l0.tail := by
      rw [lookup_advanceIters, if_pos rfl, hl0]
      rfl
    have hascE := inv.asc e (by simp)
    rw [hgetD] at hascE
    have hbgt : ts < b.timestamp := by
      rw [hl0c] at hascE
      have h2 := (List.sorted_cons.mp hascE).1 b.timestamp (by simp)
      omega
    have hrestNe : ∀ e2 ∈ rest, e2.symbol ≠ e.symbol := by
      intro e2 h2 hx
      exact hnd.1 (hx ▸ List.mem_map_of_mem SyncEntry.symbol h2)
    have inv1 : SyncInv (List.orderedInsert entryLE ⟨b.timestamp, e.symbol, b⟩ rest)
        (advanceIters iters e.symbol) := by
      refine ⟨?_, ?_, ?_, ?_⟩
      · exact List.Sorted.orderedInsert _ _ hsc.2
      · have hperm : List.Perm
            ((List.orderedInsert entryLE ⟨b.timestamp, e.symbol, b⟩ rest).map SyncEntry.symbol)
            (e.symbol :: rest.map SyncEntry.symbol) :=
          (List.perm_orderedInsert entryLE _ rest).map SyncEntry.symbol
        rw [hperm.nodup_iff, List.nodup_cons]
        exact ⟨hnd.1, hnd.2⟩
      · intro e2 he2
        rcases (List.mem_orderedInsert entryLE).mp he2 with rfl | h2
        · rfl
        · exact inv.tsEq e2 (List.mem_cons_of_mem e h2)
      · intro e2 he2
        rcases (List.mem_orderedInsert entryLE).mp he2 with rfl | h2
        · rw [hlkE]
          have h3 : (b :: (some l0.tail).getD []) = l0 := by rw [hl0c]; rfl
          rw [show (⟨b.timestamp, e.symbol, b⟩ : SyncEntry).bar = b from rfl, h3]
          exact (List.sorted_cons.mp hascE).2
        · rw [hlk1 e2.symbol (hrestNe e2 h2)]
          exact inv.asc e2 (List.mem_cons_of_mem e h2)
    have hlb1 : ∀ e2 ∈ List.orderedInsert entryLE ⟨b.timestamp, e.symbol, b⟩ rest,
        ts ≤ e2.ts := by
      intro e2 he2
      rcases (List.mem_orderedInsert entryLE).mp he2 with rfl | h2
      · exact le_of_lt hbgt
      · exact hlb e2 (List.mem_cons_of_mem e h2)
    obtain ⟨ihG, ihI, ihL, ihS⟩ := ih inv1 hlb1
    have hSrestNoE : ∀ bl, (e.symbol, bl) ∉ syncStreams rest iters := by
      intro bl hmem
      exact hnd.1 (syncStreams_fst_mem hmem)
    have hbridge : ∀ s bl, (s, bl) ∈
        syncStreams (List.orderedInsert entryLE ⟨b.timestamp, e.symbol, b⟩ rest)
          (advanceIters iters e.symbol) ↔
        ((s = e.symbol ∧ bl = l0) ∨ (s, bl) ∈ syncStreams rest iters) := by
      intro s bl
      rw [mem_syncStreams]
      constructor
      · rintro ⟨e2, he2, hsym, hbl⟩
        rcases (List.mem_orderedInsert entryLE).mp he2 with rfl | h2
        · left
          refine ⟨hsym.symm, ?_⟩
          rw [hbl, ← hsym]
          show b :: ((advanceIters iters e.symbol).lookup e.symbol).getD [] = l0
          rw [hlkE, hl0c]
          rfl
        · right
          have hne : s ≠ e.symbol := by
            rw [← hsym]; exact hrestNe e2 h2
          rw [mem_syncStreams]
          exact ⟨e2, h2, hsym, by rw [hbl, ← hsym, hlk1 e2.symbol (hrestNe e2 h2), hsym]⟩
      · rintro (⟨rfl, hbleq⟩ | h)
        · refine ⟨⟨b.timestamp, e.symbol, b⟩, (List.mem_orderedInsert entryLE).mpr (Or.inl rfl), rfl, ?_⟩
          show bl = b :: ((advanceIters iters e.symbol).lookup e.symbol).getD []
          rw [hbleq, hlkE]
          exact hl0c
        · rcases mem_syncStreams.mp h with ⟨e2, h2, hsym, hbl⟩
          refine ⟨e2, (List.mem_orderedInsert entryLE).mpr (Or.inr h2), hsym, ?_⟩
          rw [hbl, ← hsym, hlk1 e2.symbol (hrestNe e2 h2), hsym]
    have hScons : ∀ s bl, (s, bl) ∈ syncStreams (e :: rest) iters ↔
        ((s = e.symbol ∧ bl = e.bar :: l0) ∨ (s, bl) ∈ syncStreams rest iters) := by
      intro s bl
      rw [mem_syncStreams]
      constructor
      · rintro ⟨e2, he2, hsym, hbl⟩
        rcases List.mem_cons.mp he2 with rfl | h2
        · left
          exact ⟨hsym.symm, by rw [hbl, ← hsym, hgetD]⟩
        · right
          exact mem_syncStreams.mpr ⟨e2, h2, hsym, hbl⟩
      · rintro (⟨rfl, rfl⟩ | h)
        · exact ⟨e, by simp, rfl, by rw [hgetD]⟩
        · rcases mem_syncStreams.mp h with ⟨e2, h2, hsym, hbl⟩
          exact ⟨e2, List.mem_cons_of_mem e h2, hsym, hbl⟩
    rw [syncCollect_cons_some hts hn]
    dsimp only
    refine ⟨?_, ihI, ihL, ?_⟩
    · intro s bb
      rw [List.mem_cons, ihG s bb]
      constructor
      · rintro (heq | ⟨e2, h2, hsym, hbar, hts2⟩)
        · rw [Prod.mk.injEq] at heq
          exact ⟨e, by simp, heq.1.symm, heq.2.symm, hts⟩
        · rcases (List.mem_orderedInsert entryLE).mp h2 with rfl | h2
          · exact absurd hts2 (by simp; omega)
          · exact ⟨e2, List.mem_cons_of_mem e h2, hsym, hbar, hts2⟩
      · rintro ⟨e2, h2, hsym, hbar, hts2⟩
        rcases List.mem_cons.mp h2 with rfl | h2
        · left
          rw [Prod.mk.injEq]
          exact ⟨hsym.symm, hbar.symm⟩
        · right
          exact ⟨e2, (List.mem_orderedInsert entryLE).mpr (Or.inr h2), hsym, hbar, hts2⟩
    · intro s bl
      rw [ihS s bl]
      by_cases hs : s = e.symbol
      · subst hs
        constructor
        · rintro (⟨hmem, hhead⟩ | ⟨b0, hmem, hb0, hne⟩)
          · rcases (hbridge _ _).mp hmem with ⟨_, rfl⟩ | hmem2
            · right
              refine ⟨e.bar, (hScons _ _).mpr (Or.inl ⟨rfl, rfl⟩), htsE, ?_⟩
              rw [hl0c]
              simp
            · exact absurd hmem2 (hSrestNoE _)
          · rcases (hbridge _ _).mp hmem with ⟨_, heq⟩ | hmem2
            · rw [hl0c] at heq
              injection heq with h1 h2
              rw [h1] at hb0
              omega
            · exact absurd hmem2 (hSrestNoE _)
        · rintro (⟨hmem, hhead⟩ | ⟨b0, hmem, hb0, hne⟩)
          · rcases (hScons _ _).mp hmem with ⟨_, rfl⟩ | hmem2
            · exact absurd htsE (hhead e.bar (by simp))
            · exact absurd hmem2 (hSrestNoE _)
          · rcases (hScons _ _).mp hmem with ⟨_, heq⟩ | hmem2
            · injection heq with h1 h2
              subst h2
              left
              refine ⟨(hbridge _ _).mpr (Or.inl ⟨rfl, rfl⟩), ?_⟩
              intro b1 hb1
              rw [hl0c] at hb1
              simp at hb1
              subst hb1
              omega
            · exact absurd hmem2 (hSrestNoE _)
      · have hb1 : ∀ bl2, ((s, bl2) ∈
            syncStreams (List.orderedInsert entryLE ⟨b.timestamp, e.symbol, b⟩ rest)
              (advanceIters iters e.symbol)) ↔ (s, bl2) ∈ syncStreams rest iters := by
          intro bl2
          rw [hbridge]
          simp [hs]
        have hb2 : ∀ bl2, ((s, bl2) ∈ syncStreams (e :: rest) iters) ↔
            (s, bl2) ∈ syncStreams rest iters := by
          intro bl2
          rw [hScons]
          simp [hs]
        simp only [hb1, hb2]
  | case3 iters e rest hts hn ih =>
    have hsc := inv.sorted
    rw [List.sorted_cons] at hsc
    have hnd := inv.nodup
    rw [List.map_cons, List.nodup_cons] at hnd
    have htsE : e.bar.timestamp = ts := by
      have h1 := inv.tsEq e (by simp)
      omega
    have hgetD : (iters.lookup e.symbol).getD [] = [] := by
      rw [nextBar_eq_head] at hn
      exact List.head?_eq_none_iff.mp hn
    have hlk1 : ∀ s2, s2 ≠ e.symbol →
        (advanceIters iters e.symbol).lookup s2 = iters.lookup s2 := by
      intro s2 hs2
      rw [lookup_advanceIters, if_neg hs2]
    have hrestNe : ∀ e2 ∈ rest, e2.symbol ≠ e.symbol := by
      intro e2 h2 hx
      exact hnd.1 (hx ▸ List.mem_map_of_mem SyncEntry.symbol h2)
    have hcongrEq : syncStreams rest (advanceIters iters e.symbol) =
        syncStreams rest iters :=
      syncStreams_congr (fun e2 h2 => hlk1 e2.symbol (hrestNe e2 h2))
    have inv1 : SyncInv rest (advanceIters iters e.symbol) := by
      refine ⟨hsc.2, hnd.2, ?_, ?_⟩
      · intro e2 he2
        exact inv.tsEq e2 (List.mem_cons_of_mem e he2)
      · intro e2 he2
        rw [hlk1 e2.symbol (hrestNe e2 he2)]
        exact inv.asc e2 (List.mem_cons_of_mem e he2)
    have hlb1 : ∀ e2 ∈ rest, ts ≤ e2.ts := fun e2 h2 => hlb e2 (List.mem_cons_of_mem e h2)
    obtain ⟨ihG, ihI, ihL, ihS⟩ := ih inv1 hlb1
    have hSrestNoE : ∀ bl, (e.symbol, bl) ∉ syncStreams rest iters := by
      intro bl hmem
      exact hnd.1 (syncStreams_fst_mem hmem)
    have hScons : ∀ s bl, (s, bl) ∈ syncStreams (e :: rest) iters ↔
        ((s = e.symbol ∧ bl = [e.bar]) ∨ (s, bl) ∈ syncStreams rest iters) := by
      intro s bl
      rw [mem_syncStreams]
      constructor
      · rintro ⟨e2, he2, hsym, hbl⟩
        rcases List.mem_cons.mp he2 with rfl | h2
        · left
          refine ⟨hsym.symm, ?_⟩
          rw [hbl, ← hsym, hgetD]
        · right
          exact mem_syncStreams.mpr ⟨e2, h2, hsym, hbl⟩
      · rintro (⟨rfl, hbleq⟩ | h)
        · refine ⟨e, by simp, rfl, ?_⟩
          rw [hbleq, hgetD]
        · rcases mem_syncStreams.mp h with ⟨e2, h2, hsym, hbl⟩
          exact ⟨e2, List.mem_cons_of_mem e h2, hsym, hbl⟩
    rw [syncCollect_cons_none hts hn]
    dsimp only
    refine ⟨?_, ihI, ihL, ?_⟩
    · intro s bb
      rw [List.mem_cons, ihG s bb]
      constructor
      · rintro (heq | ⟨e2, h2, hsym, hbar, hts2⟩)
        · rw [Prod.mk.injEq] at heq
          exact ⟨e, by simp, heq.1.symm, heq.2.symm, hts⟩
        · exact ⟨e2, List.mem_cons_of_mem e h2, hsym, hbar, hts2⟩
      · rintro ⟨e2, h2, hsym, hbar, hts2⟩
        rcases List.mem_cons.mp h2 with rfl | h2
        · left
          rw [Prod.mk.injEq]
          exact ⟨hsym.symm, hbar.symm⟩
        · right
          exact ⟨e2, h2, hsym, hbar, hts2⟩
    · intro s bl
      rw [ihS s bl, hcongrEq]
      by_cases hs : s = e.symbol
      · subst hs
        constructor
        · rintro (⟨hmem, _⟩ | ⟨b0, hmem, _, _⟩)
          · exact absurd hmem (hSrestNoE _)
          · exact absurd hmem (hSrestNoE _)
        · rintro (⟨hmem, hhead⟩ | ⟨b0, hmem, hb0, hne⟩)
          · rcases (hScons _ _).mp hmem with ⟨_, rfl⟩ | hmem2
            · exact absurd htsE (hhead e.bar (by simp))
            · exact absurd hmem2 (hSrestNoE _)
          · rcases (hScons _ _).mp hmem with ⟨_, heq⟩ | hmem2
            · injection heq with h1 h2
              exact absurd h2 hne
            · exact absurd hmem2 (hSrestNoE _)
      · have hb2 : ∀ bl2, ((s, bl2) ∈ syncStreams (e :: rest) iters) ↔
            (s, bl2) ∈ syncStreams rest iters := by
          intro bl2
          rw [hScons]
          simp [hs]
        simp only [hb2]
  | case4 iters e rest hts =>
    rw [syncCollect_cons_miss hts]
    have hsc := inv.sorted
    rw [List.sorted_cons] at hsc
    have hgt : ∀ e2 ∈ e :: rest, ts < e2.ts := by
      intro e2 he2
      rcases List.mem_cons.mp he2 with h | h
      · subst h
        exact lt_of_le_of_ne (hlb e2 (by simp)) (fun hx => hts hx.symm)
      · have h1 : e.ts ≤ e2.ts := entryLE_ts_le (hsc.1 e2 h)
        have h2 : ts < e.ts := lt_of_le_of_ne (hlb e (by simp)) (fun hx => hts hx.symm)
        omega
    refine ⟨?_, inv, hgt, ?_⟩
    · intro s bb
      simp only [List.not_mem_nil, false_iff]
      rintro ⟨e2, he2, _, _, h3⟩
      exact absurd h3.symm (ne_of_lt (hgt e2 he2))
    · intro s bl
      constructor
      · intro h
        refine Or.inl ⟨h, ?_⟩
        rcases mem_syncStreams.mp h with ⟨e2, he2, hsym, hbl⟩
        intro b0 hb0
        rw [hbl] at hb0
        simp at hb0
        subst hb0
        have := inv.tsEq e2 he2
        have := hgt e2 he2
        omega
      · rintro (⟨h, _⟩ | ⟨b0, hmem, hb0ts, _⟩)
        · exact h
        · rcases mem_syncStreams.mp hmem with ⟨e2, he2, hsym, hbl⟩
          have h1 : b0 = e2.bar := by
            injection hbl with h1 h2
          have := inv.tsEq e2 he2
          have := hgt e2 he2
          rw [h1] at hb0ts
          omega

theorem sorted_map_head_lt {x : Bar} {xs : List Bar}
    (h : List.Sorted (· < ·) ((x :: xs).map Bar.timestamp)) :
    ∀ b2 ∈ xs, x.timestamp < b2.timestamp := by
  rw [List.map_cons, List.sorted_cons] at h
  intro b2 hb2
  exact h.1 b2.timestamp (List.mem_map_of_mem Bar.timestamp hb2)

theorem mem_flattenTs (Rl : List (String × List Bar)) (t : Int) :
    (t ∈ ((Rl.map (fun p => p.2.map Bar.timestamp)).flatten)) ↔
      ∃ p ∈ Rl, ∃ b2 ∈ p.2, b2.timestamp = t := by
  simp only [List.mem_flatten, List.mem_map]
  constructor
  · rintro ⟨l, ⟨p, hp, rfl⟩, hl⟩
    rcases List.mem_map.mp hl with ⟨b2, hb2, rfl⟩
    exact ⟨p, hp, b2, hb2, rfl⟩
  · rintro ⟨p, hp, b2, hb2, rfl⟩
    exact ⟨p.2.map Bar.timestamp, ⟨p, hp, rfl⟩, List.mem_map_of_mem Bar.timestamp hb2⟩


theorem syncEmit_spec (heap : List SyncEntry) (iters : List (String × List Bar))
    (inv : SyncInv heap iters) :
    List.Chain' (· < ·) ((syncEmit heap iters).map Prod.fst) ∧
    (∀ t ∈ (syncEmit heap iters).map Prod.fst,
        ∃ p ∈ syncStreams heap iters, ∃ b2 ∈ p.2, b2.timestamp = t) ∧
    ((syncEmit heap iters).length =
      (((syncStreams heap iters).map (fun p => p.2.map Bar.timestamp)).flatten).toFinset.card) ∧
    (∀ t m, (t, m) ∈ syncEmit heap iters → ∀ s b2,
        ((s, b2) ∈ m ↔ ∃ l, (s, l) ∈ syncStreams heap iters ∧ b2 ∈ l ∧ b2.timestamp = t)) := by
  induction heap, iters using syncEmit.induct with
  | case1 iters =>
    rw [syncEmit_nil]
    refine ⟨by simp, by simp, ?_, by simp⟩
    simp [syncStreams]
  | case2 iters e rest r ih =>
    have hlb : ∀ e2 ∈ e :: rest, e.ts ≤ e2.ts := by
      intro e2 he2
      rcases List.mem_cons.mp he2 with rfl | h2
      · exact le_rfl
      · exact entryLE_ts_le ((List.sorted_cons.mp inv.sorted).1 e2 h2)
    obtain ⟨hG, hI, hL, hS⟩ := syncCollect_spec e.ts (e :: rest) iters inv hlb
    obtain ⟨C1, C2, C3, C4⟩ := ih hI
    have heS : (e.symbol, e.bar :: ((iters.lookup e.symbol).getD [])) ∈
        syncStreams (e :: rest) iters :=
      mem_syncStreams.mpr ⟨e, by simp, rfl, rfl⟩
    have htsE : e.bar.timestamp = e.ts := (inv.tsEq e (by simp)).symm
    have hRsorted : ∀ s bl, (s, bl) ∈ syncStreams (e :: rest) iters →
        List.Sorted (· < ·) (bl.map Bar.timestamp) := by
      intro s bl h
      rcases mem_syncStreams.mp h with ⟨e2, he2, hsym, hbl⟩
      rw [hbl, ← hsym]
      exact inv.asc e2 he2
    have hRhead : ∀ s bl, (s, bl) ∈ syncStreams (e :: rest) iters →
        ∃ x xs, bl = x :: xs ∧ e.ts ≤ x.timestamp := by
      intro s bl h
      rcases mem_syncStreams.mp h with ⟨e2, he2, hsym, hbl⟩
      refine ⟨e2.bar, _, hbl, ?_⟩
      rw [← inv.tsEq e2 he2]
      exact hlb e2 he2
    have hR'elem : ∀ s bl, (s, bl) ∈
        syncStreams (syncCollect e.ts (e :: rest) iters).2.1
          (syncCollect e.ts (e :: rest) iters).2.2 →
        ∀ b2 ∈ bl, e.ts < b2.timestamp := by
      intro s bl h b2 hb2
      rcases (hS s bl).mp h with ⟨hmem, hhead⟩ | ⟨b0, hmem, hb0, hne⟩
      · rcases hRhead s bl hmem with ⟨x, xs, hblx, hx⟩
        have hxne : x.timestamp ≠ e.ts := by
          apply hhead
          rw [hblx]
          rfl
        subst hblx
        rcases List.mem_cons.mp hb2 with rfl | h2
        · omega
        · have := sorted_map_head_lt (hRsorted s _ hmem) b2 h2
          omega
      · have := sorted_map_head_lt (hRsorted s _ hmem) b2 hb2
        omega
    have hR'sub : ∀ s bl, (s, bl) ∈
        syncStreams (syncCollect e.ts (e :: rest) iters).2.1
          (syncCollect e.ts (e :: rest) iters).2.2 →
        ∃ l, (s, l) ∈ syncStreams (e :: rest) iters ∧ ∀ b2 ∈ bl, b2 ∈ l := by
      intro s bl h
      rcases (hS s bl).mp h with ⟨hmem, _⟩ | ⟨b0, hmem, _, _⟩
      · exact ⟨bl, hmem, fun b2 hb2 => hb2⟩
      · exact ⟨b0 :: bl, hmem, fun b2 hb2 => List.mem_cons_of_mem b0 hb2⟩
    have hRecGt : ∀ t ∈ (syncEmit (syncCollect e.ts (e :: rest) iters).2.1
        (syncCollect e.ts (e :: rest) iters).2.2).map Prod.fst, e.ts < t := by
      intro t ht
      rcases C2 t ht with ⟨p, hp, b2, hb2, rfl⟩
      exact hR'elem p.1 p.2 hp b2 hb2
    have htsNotR' : e.ts ∉
        (((syncStreams (syncCollect e.ts (e :: rest) iters).2.1
            (syncCollect e.ts (e :: rest) iters).2.2).map
          (fun p => p.2.map Bar.timestamp)).flatten) := by
      intro h
      rcases (mem_flattenTs _ _).mp h with ⟨p, hp, b2, hb2, hbt⟩
      have := hR'elem p.1 p.2 hp b2 hb2
      omega
    have hsetEq : (((syncStreams (e :: rest) iters).map
          (fun p => p.2.map Bar.timestamp)).flatten).toFinset =
        insert e.ts (((syncStreams (syncCollect e.ts (e :: rest) iters).2.1
            (syncCollect e.ts (e :: rest) iters).2.2).map
          (fun p => p.2.map Bar.timestamp)).flatten).toFinset := by
      ext t
      simp only [List.mem_toFinset, Finset.mem_insert]
      rw [mem_flattenTs, mem_flattenTs]
      constructor
      · rintro ⟨p, hp, b2, hb2, rfl⟩
        by_cases hteq : b2.timestamp = e.ts
        · exact Or.inl hteq
        · right
          rcases hRhead p.1 p.2 hp with ⟨x, xs, hpx, hxge⟩
          by_cases hxts : x.timestamp = e.ts
          · have hb2xs : b2 ∈ xs := by
              rcases List.mem_cons.mp (hpx ▸ hb2) with rfl | h2
              · exact absurd hxts hteq
              · exact h2
            refine ⟨(p.1, xs), ?_, b2, hb2xs, rfl⟩
            apply (hS p.1 xs).mpr
            right
            refine ⟨x, ?_, hxts, ?_⟩
            · rw [← hpx]
              exact hp
            · intro hx
              rw [hx] at hb2xs
              simp at hb2xs
          · refine ⟨p, ?_, b2, hb2, rfl⟩
            have hp2 : (p.1, p.2) ∈ syncStreams (e :: rest) iters := hp
            apply (hS p.1 p.2).mpr
            left
            refine ⟨hp2, ?_⟩
            intro b0 hb0
            rw [hpx] at hb0
            simp at hb0
            subst hb0
            exact hxts
      · rintro (rfl | ⟨p, hp, b2, hb2, rfl⟩)
        · exact ⟨_, heS, e.bar, by simp, htsE⟩
        · rcases hR'sub p.1 p.2 hp with ⟨l, hl, hsub⟩
          exact ⟨(p.1, l), hl, b2, hsub b2 hb2, rfl⟩
    rw [syncEmit_cons]
    refine ⟨?_, ?_, ?_, ?_⟩
    · rw [List.map_cons, List.chain'_cons']
      refine ⟨?_, C1⟩
      intro t2 ht2
      exact hRecGt t2 (List.mem_of_mem_head? ht2)
    · intro t ht
      rw [List.map_cons] at ht
      rcases List.mem_cons.mp ht with rfl | ht2
      · exact ⟨_, heS, e.bar, by simp, htsE⟩
      · rcases C2 t ht2 with ⟨p, hp, b2, hb2, rfl⟩
        rcases hR'sub p.1 p.2 hp with ⟨l, hl, hsub⟩
        exact ⟨(p.1, l), hl, b2, hsub b2 hb2, rfl⟩
    · rw [List.length_cons, C3, hsetEq,
        Finset.card_insert_of_not_mem (by simpa using htsNotR')]
    · intro t m htm s b2
      rcases List.mem_cons.mp htm with heq | htm2
      · injection heq with h1 h2
        subst h1
        subst h2
        rw [hG s b2]
        constructor
        · rintro ⟨e2, he2, hsym, hbar, hts2⟩
          refine ⟨e2.bar :: ((iters.lookup s).getD []), ?_, ?_, ?_⟩
          · exact mem_syncStreams.mpr ⟨e2, he2, hsym, rfl⟩
          · rw [← hbar]
            exact List.mem_cons_self _ _
          · rw [← hbar, ← inv.tsEq e2 he2]
            exact hts2
        · rintro ⟨l, hl, hb2, hbt⟩
          rcases mem_syncStreams.mp hl with ⟨e2, he2, hsym, hbl⟩
          subst hbl
          rcases List.mem_cons.mp hb2 with rfl | h2
          · refine ⟨e2, he2, hsym, rfl, ?_⟩
            rw [inv.tsEq e2 he2]
            exact hbt
          · have hsort := inv.asc e2 he2
            rw [hsym] at hsort
            have hlt := sorted_map_head_lt hsort b2 h2
            have hts2 := inv.tsEq e2 he2
            have hge := hlb e2 he2
            exact absurd hbt (by omega)
      · have htgt : e.ts < t :=
          hRecGt t (List.mem_map.mpr ⟨(t, m), htm2, rfl⟩)
        rw [C4 t m htm2 s b2]
        constructor
        · rintro ⟨l2, hl2, hb2, hbt⟩
          rcases hR'sub s l2 hl2 with ⟨l, hl, hsub⟩
          exact ⟨l, hl, hsub b2 hb2, hbt⟩
        · rintro ⟨l, hl, hb2, hbt⟩
          rcases hRhead s l hl with ⟨x, xs, hlx, hxge⟩
          subst hlx
          by_cases hxts : x.timestamp = e.ts
          · have hb2xs : b2 ∈ xs := by
              rcases List.mem_cons.mp hb2 with rfl | h2
              · exact absurd hbt (by omega)
              · exact h2
            refine ⟨xs, ?_, hb2xs, hbt⟩
            apply (hS s xs).mpr
            right
            refine ⟨x, hl, hxts, ?_⟩
            intro hx
            rw [hx] at hb2xs
            simp at hb2xs
          · refine ⟨x :: xs, ?_, hb2, hbt⟩
            apply (hS s (x :: xs)).mpr
            left
            refine ⟨hl, ?_⟩
            intro b0 hb0
            simp at hb0
            subst hb0
            exact hxts

theorem lookup_mapTail (feeds : List (String × List Bar)) (s : String) :
    (feeds.map (fun p => (p.1, p.2.tail))).lookup s = (feeds.lookup s).map List.tail := by
  induction feeds with
  | nil => simp [List.lookup]
  | cons p rest ih =>
    obtain ⟨k, l⟩ := p
    by_cases hk : s = k
    · subst hk
      simp [List.lookup]
    · have h2 : (s == k) = false := by simp [hk]
      simp [List.lookup, h2, ih]

theorem lookup_of_mem_nodup {feeds : List (String × List Bar)} {s : String} {l : List Bar}
    (hnd : (feeds.map Prod.fst).Nodup) (h : (s, l) ∈ feeds) :
    feeds.lookup s = some l := by
  induction feeds with
  | nil => simp at h
  | cons p rest ih =>
    obtain ⟨k, v⟩ := p
    rw [List.map_cons, List.nodup_cons] at hnd
    rcases List.mem_cons.mp h with heq | h2
    · rw [Prod.mk.injEq] at heq
      obtain ⟨rfl, rfl⟩ := heq
      simp [List.lookup]
    · have hs : s ∈ rest.map Prod.fst := List.mem_map.mpr ⟨(s, l), h2, rfl⟩
      have hk : ¬ s = k := fun hx => hnd.1 (hx ▸ hs)
      have h3 : (s == k) = false := by simp [hk]
      simp [List.lookup, h3, ih hnd.2 h2]

theorem seedSymbols_sublist (feeds : List (String × List Bar)) :
    List.Sublist
      ((feeds.filterMap (fun p => p.2.head?.map
        (fun b => (⟨b.timestamp, p.1, b⟩ : SyncEntry)))).map SyncEntry.symbol)
      (feeds.map Prod.fst) := by
  induction feeds with
  | nil => simp
  | cons p rest ih =>
    cases hl : p.2 with
    | nil => simpa [List.filterMap_cons, hl] using ih.cons p.1
    | cons x xs => simpa [List.filterMap_cons, hl] using ih.cons₂ p.1

theorem mem_seeds {feeds : List (String × List Bar)} {e : SyncEntry} :
    e ∈ feeds.filterMap (fun p => p.2.head?.map
        (fun b => (⟨b.timestamp, p.1, b⟩ : SyncEntry))) ↔
      ∃ p ∈ feeds, ∃ b2, p.2.head? = some b2 ∧ e = ⟨b2.timestamp, p.1, b2⟩ := by
  rw [List.mem_filterMap]
  constructor
  · rintro ⟨p, hp, hf⟩
    rcases Option.map_eq_some'.mp hf with ⟨b2, hb2, rfl⟩
    exact ⟨p, hp, b2, hb2, rfl⟩
  · rintro ⟨p, hp, b2, hb2, rfl⟩
    exact ⟨p, hp, by rw [hb2]; rfl⟩

theorem initInv (feeds : List (String × List Bar))
    (hkeys : (feeds.map Prod.fst).Nodup)
    (hasc : ∀ p ∈ feeds, List.Sorted (· < ·) (p.2.map Bar.timestamp)) :
    SyncInv (List.insertionSort entryLE (feeds.filterMap (fun p => p.2.head?.map
        (fun b => (⟨b.timestamp, p.1, b⟩ : SyncEntry)))))
      (feeds.map (fun p => (p.1, p.2.tail))) := by
  have hperm := List.perm_insertionSort entryLE (feeds.filterMap (fun p => p.2.head?.map
        (fun b => (⟨b.timestamp, p.1, b⟩ : SyncEntry))))
  refine ⟨List.sorted_insertionSort _ _, ?_, ?_, ?_⟩
  · rw [(hperm.map SyncEntry.symbol).nodup_iff]
    exact (seedSymbols_sublist feeds).nodup hkeys
  · intro e he
    rcases mem_seeds.mp (hperm.mem_iff.mp he) with ⟨p, hp, b2, hb2, rfl⟩
    rfl
  · intro e he
    rcases mem_seeds.mp (hperm.mem_iff.mp he) with ⟨p, hp, b2, hb2, rfl⟩
    have hlk : (feeds.map (fun p => (p.1, p.2.tail))).lookup p.1 = some p.2.tail := by
      rw [lookup_mapTail, lookup_of_mem_nodup hkeys hp]
      rfl
    show List.Sorted (· < ·) ((b2 :: ((feeds.map (fun p => (p.1, p.2.tail))).lookup p.1).getD []).map Bar.timestamp)
    rw [hlk]
    have hcons : p.2 = b2 :: p.2.tail := by
      cases hl : p.2 with
      | nil => rw [hl] at hb2; simp at hb2
      | cons x xs =>
        rw [hl] at hb2
        simp only [List.head?_cons, Option.some.injEq] at hb2
        rw [hb2]
        rfl
    have := hasc p hp
    rw [hcons] at this
    exact this

theorem initStreams (feeds : List (String × List Bar))
    (hkeys : (feeds.map Prod.fst).Nodup) :
    ∀ s l, (s, l) ∈ syncStreams
        (List.insertionSort entryLE (feeds.filterMap (fun p => p.2.head?.map
          (fun b => (⟨b.timestamp, p.1, b⟩ : SyncEntry)))))
        (feeds.map (fun p => (p.1, p.2.tail))) ↔
      ((s, l) ∈ feeds ∧ l ≠ []) := by
  have hperm := List.perm_insertionSort entryLE (feeds.filterMap (fun p => p.2.head?.map
        (fun b => (⟨b.timestamp, p.1, b⟩ : SyncEntry))))
  intro s l
  rw [mem_syncStreams]
  constructor
  · rintro ⟨e, he, hsym, hbl⟩
    rcases mem_seeds.mp (hperm.mem_iff.mp he) with ⟨p, hp, b2, hb2, rfl⟩
    have hsym2 : p.1 = s := hsym
    have hcons : p.2 = b2 :: p.2.tail := by
      cases hl : p.2 with
      | nil => rw [hl] at hb2; simp at hb2
      | cons x xs =>
        rw [hl] at hb2
        simp only [List.head?_cons, Option.some.injEq] at hb2
        rw [hb2]
        rfl
    have hlk : (feeds.map (fun p => (p.1, p.2.tail))).lookup s = some p.2.tail := by
      rw [lookup_mapTail, ← hsym2, lookup_of_mem_nodup hkeys hp]
      rfl
    rw [hlk] at hbl
    have hleq : l = p.2 := by
      rw [hbl, hcons]
      rfl
    constructor
    · rw [hleq, ← hsym2]
      exact hp
    · rw [hleq, hcons]
      simp
  · rintro ⟨hmem, hne⟩
    have hcons : ∃ b2, l.head? = some b2 := by
      cases l with
      | nil => exact absurd rfl hne
      | cons x xs => exact ⟨x, rfl⟩
    obtain ⟨b2, hb2⟩ := hcons
    refine ⟨⟨b2.timestamp, s, b2⟩, hperm.mem_iff.mpr (mem_seeds.mpr ⟨(s, l), hmem, b2, hb2, rfl⟩), rfl, ?_⟩
    have hlk : (feeds.map (fun p => (p.1, p.2.tail))).lookup s = some l.tail := by
      rw [lookup_mapTail, lookup_of_mem_nodup hkeys hmem]
      rfl
    rw [hlk]
    cases l with
    | nil => exact absurd rfl hne
    | cons x xs =>
      simp only [List.head?_cons, Option.some.injEq] at hb2
      rw [hb2]
      rfl

/-- Claim C4: for any finite family of per-instrument bar sequences with
distinct symbols and strictly ascending timestamps, the synchronizer emits
events with strictly increasing timestamps; it emits exactly one event per
distinct timestamp in the union of the inputs; and each event's map contains
exactly the symbols whose sequence has a bar at that timestamp, bound to that
bar — no forward-fill, no placeholders. -/
theorem claim_C4_synchronizer (feeds : List (String × List Bar))
    (hkeys : (feeds.map Prod.fst).Nodup)
    (hasc : ∀ p ∈ feeds, List.Sorted (· < ·) (p.2.map Bar.timestamp)) :
    List.Chain' (· < ·) ((iter_bars_sync feeds).map Prod.fst) ∧
    (iter_bars_sync feeds).length =
      ((feeds.map (fun p => p.2.map Bar.timestamp)).flatten).toFinset.card ∧
    (∀ t m, (t, m) ∈ iter_bars_sync feeds → ∀ s b2,
        ((s, b2) ∈ m ↔ ∃ l, (s, l) ∈ feeds ∧ b2 ∈ l ∧ b2.timestamp = t)) := by
  obtain ⟨E1, E2, E3, E4⟩ := syncEmit_spec
    (List.insertionSort entryLE (feeds.filterMap (fun p => p.2.head?.map
      (fun b => (⟨b.timestamp, p.1, b⟩ : SyncEntry)))))
    (feeds.map (fun p => (p.1, p.2.tail)))
    (initInv feeds hkeys hasc)
  have hIS := initStreams feeds hkeys
  have hout : iter_bars_sync feeds = syncEmit
      (List.insertionSort entryLE (feeds.filterMap (fun p => p.2.head?.map
        (fun b => (⟨b.timestamp, p.1, b⟩ : SyncEntry)))))
      (feeds.map (fun p => (p.1, p.2.tail))) := rfl
  rw [hout]
  refine ⟨E1, ?_, ?_⟩
  · rw [E3]
    congr 1
    ext t
    simp only [List.mem_toFinset]
    rw [mem_flattenTs, mem_flattenTs]
    constructor
    · rintro ⟨p, hp, b2, hb2, rfl⟩
      exact ⟨(p.1, p.2), ((hIS p.1 p.2).mp hp).1, b2, hb2, rfl⟩
    · rintro ⟨p, hp, b2, hb2, rfl⟩
      refine ⟨(p.1, p.2), (hIS p.1 p.2).mpr ⟨hp, ?_⟩, b2, hb2, rfl⟩
      intro hx
      rw [hx] at hb2
      simp at hb2
  · intro t m htm s b2
    rw [E4 t m htm s b2]
    constructor
    · rintro ⟨l, hl, hb2, hbt⟩
      exact ⟨l, ((hIS s l).mp hl).1, hb2, hbt⟩
    · rintro ⟨l, hl, hb2, hbt⟩
      refine ⟨l, (hIS s l).mpr ⟨hl, ?_⟩, hb2, hbt⟩
      intro hx
      rw [hx] at hb2
      simp at hb2

theorem update_position_cash (pf : Portfolio) (symbol side : String) (q p c : ℚ) :
    (pf.update_position symbol side q p c).cash =
      if side = "buy" then pf.cash - (q * p + c) else pf.cash + (q * p - c) := rfl

theorem applyFills_cash (pf : Portfolio) (fs : List FillEvent) :
    (pf.applyFills fs).cash = pf.cash
      - ((fs.filter (fun f => f.side == "buy")).map
          (fun f => f.quantity * f.price + f.commission)).sum
      + ((fs.filter (fun f => !(f.side == "buy"))).map
          (fun f => f.quantity * f.price - f.commission)).sum := by
  induction fs generalizing pf with
  | nil => simp [Portfolio.applyFills]
  | cons f rest ih =>
    have hc : Portfolio.applyFills pf (f :: rest) =
        Portfolio.applyFills
          (pf.update_position f.symbol f.side f.quantity f.price f.commission) rest := rfl
    rw [hc, ih, update_position_cash]
    by_cases h : f.side = "buy"
    · have hb : (f.side == "buy") = true := by simp [h]
      rw [if_pos h]
      simp [List.filter_cons, hb]
      ring
    · have hb : (f.side == "buy") = false := by simp [h]
      rw [if_neg h]
      simp [List.filter_cons, hb]
      ring

theorem apply_fill_strong {p : Position} (side : String) {q pr : ℚ}
    (hiff : p.avg_price = 0 ↔ p.quantity = 0)
    (hcb : p.cost_basis = |p.quantity| * p.avg_price)
    (havg : 0 ≤ p.avg_price) (hq : 0 < q) (hpr : 0 < pr) :
    ((p.apply_fill side q pr).avg_price = 0 ↔ (p.apply_fill side q pr).quantity = 0) ∧
    (p.apply_fill side q pr).cost_basis =
      |(p.apply_fill side q pr).quantity| * (p.apply_fill side q pr).avg_price ∧
    0 ≤ (p.apply_fill side q pr).avg_price := by
  unfold Position.apply_fill
  by_cases hside : side = "buy"
  · rw [if_pos hside]
    by_cases hq0 : p.quantity ≥ 0
    · rw [if_pos hq0]
      have hqty : 0 < p.quantity + q := by linarith
      have hcb0 : 0 ≤ p.cost_basis := by
        rw [hcb, abs_of_nonneg hq0]
        positivity
      have hqpr : 0 < q * pr := mul_pos hq hpr
      have hcb1 : 0 < p.cost_basis + q * pr := by linarith
      simp only [ne_eq, if_pos (ne_of_gt hqty)]
      have havg1 : 0 < (p.cost_basis + q * pr) / (p.quantity + q) := div_pos hcb1 hqty
      refine ⟨⟨fun h => absurd h (ne_of_gt havg1), fun h => absurd h (ne_of_gt hqty)⟩,
        ?_, le_of_lt havg1⟩
      rw [abs_of_pos hqty, mul_div_cancel₀ _ (ne_of_gt hqty)]
    · rw [if_neg hq0]
      push_neg at hq0
      have hqne : p.quantity ≠ 0 := ne_of_lt hq0
      have havgpos : 0 < p.avg_price :=
        lt_of_le_of_ne havg (fun h => hqne (hiff.mp h.symm))
      rcases lt_trichotomy (p.quantity + q) 0 with hlt | heq | hgt
      · rw [if_neg (not_lt.mpr (le_of_lt hlt)), if_neg (ne_of_lt hlt)]
        exact ⟨⟨fun h => absurd h (ne_of_gt havgpos), fun h => absurd h (ne_of_lt hlt)⟩,
          rfl, havg⟩
      · rw [if_neg (by rw [heq]; exact lt_irrefl 0), if_pos heq]
        refine ⟨⟨fun _ => heq, fun _ => rfl⟩, by simp, le_refl 0⟩
      · rw [if_pos hgt]
        exact ⟨⟨fun h => absurd h (ne_of_gt hpr), fun h => absurd h (ne_of_gt hgt)⟩,
          by rw [abs_of_pos hgt], le_of_lt hpr⟩
  · rw [if_neg hside]
    by_cases hq0 : p.quantity > 0
    · rw [if_pos hq0]
      have havgpos : 0 < p.avg_price :=
        lt_of_le_of_ne havg (fun h => (ne_of_gt hq0) (hiff.mp h.symm))
      rcases lt_trichotomy (p.quantity - q) 0 with hlt | heq | hgt
      · rw [if_pos hlt]
        exact ⟨⟨fun h => absurd h (ne_of_gt hpr), fun h => absurd h (ne_of_lt hlt)⟩,
          rfl, le_of_lt hpr⟩
      · rw [if_neg (by rw [heq]; exact lt_irrefl 0), if_pos heq]
        refine ⟨⟨fun _ => heq, fun _ => rfl⟩, by simp, le_refl 0⟩
      · rw [if_neg (not_lt.mpr (le_of_lt hgt)), if_neg (ne_of_gt hgt)]
        exact ⟨⟨fun h => absurd h (ne_of_gt havgpos), fun h => absurd h (ne_of_gt hgt)⟩,
          by rw [abs_of_pos hgt], havg⟩
    · rw [if_neg hq0]
      push_neg at hq0
      have hcb0 : 0 ≤ p.cost_basis := by
        rw [hcb]
        positivity
      have hqty : p.quantity - q < 0 := by linarith
      have hqpr : 0 < q * pr := mul_pos hq hpr
      have hcb1 : 0 < p.cost_basis + q * pr := by linarith
      simp only [ne_eq, if_pos (ne_of_lt hqty)]
      have habs : 0 < |p.quantity - q| := abs_pos.mpr (ne_of_lt hqty)
      have havg1 : 0 < (p.cost_basis + q * pr) / |p.quantity - q| := div_pos hcb1 habs
      refine ⟨⟨fun h => absurd h (ne_of_gt havg1), fun h => absurd h (ne_of_lt hqty)⟩,
        ?_, le_of_lt havg1⟩
      rw [mul_div_cancel₀ _ (ne_of_gt habs)]

theorem applyFills_strong {p : Position} {fs : List (String × ℚ × ℚ)}
    (h : positionInvariant p ∧ 0 ≤ p.avg_price)
    (hf : ∀ f ∈ fs, 0 < f.2.1 ∧ 0 < f.2.2) :
    positionInvariant (p.applyFills fs) ∧ 0 ≤ (p.applyFills fs).avg_price := by
  induction fs generalizing p with
  | nil => exact h
  | cons f rest ih =>
    have h1 := apply_fill_strong f.1 h.1.1 h.1.2 h.2 (hf f (by simp)).1 (hf f (by simp)).2
    have hc : Position.applyFills p (f :: rest) =
        Position.applyFills (p.apply_fill f.1 f.2.1 f.2.2) rest := rfl
    rw [hc]
    exact ih ⟨⟨h1.1, h1.2.1⟩, h1.2.2⟩ (fun g hg => hf g (List.mem_cons_of_mem f hg))

/-- Claim C2: starting from a fresh Position, after every prefix of a fill
sequence whose fills all have positive quantity and positive price, the
invariant holds: `avg_price = 0` iff `quantity = 0`, and
`cost_basis = |quantity| * avg_price` — across opening, adding, partial and
full closes, and sign flips in both directions. -/
theorem claim_C2_position_invariant (s : String) (fs : List (String × ℚ × ℚ))
    (hf : ∀ f ∈ fs, 0 < f.2.1 ∧ 0 < f.2.2) (n : ℕ) :
    positionInvariant (Position.applyFills ⟨s, 0, 0, 0, 0⟩ (fs.take n)) := by
  have h0 : positionInvariant (⟨s, 0, 0, 0, 0⟩ : Position) ∧
      0 ≤ (⟨s, 0, 0, 0, 0⟩ : Position).avg_price := by
    refine ⟨⟨Iff.rfl, by norm_num⟩, le_refl 0⟩
  exact (applyFills_strong h0 (fun f hfm => hf f (List.take_subset n fs hfm))).1

/-- Witness for C2: a concrete history with a long open, a sign flip to
short, and a partial cover. -/
theorem claim_C2_witness :
    (∀ f ∈ [(("buy" : String), (2 : ℚ), (10 : ℚ)), ("sell", 5, 4), ("buy", 3, 6)],
        0 < f.2.1 ∧ 0 < f.2.2) ∧
    positionInvariant (Position.applyFills ⟨"X", 0, 0, 0, 0⟩
      ([(("buy" : String), (2 : ℚ), (10 : ℚ)), ("sell", 5, 4), ("buy", 3, 6)].take 2)) :=
  ⟨by decide, claim_C2_position_invariant "X" _ (by decide) 2⟩

/-- Claim C3: cash conservation. Per fill, a buy changes cash by exactly
`−(qty*price + commission)` and a sell by exactly `+(qty*price − commission)`;
over any fill sequence from a fresh portfolio,
`cash = initial_cash − Σ buys (qty*price + commission) + Σ sells (qty*price − commission)`. -/
theorem claim_C3_cash_conservation (ic : ℚ) (fs : List FillEvent) :
    ((Portfolio.init ic).applyFills fs).cash = ic
      - ((fs.filter (fun f => f.side == "buy")).map
          (fun f => f.quantity * f.price + f.commission)).sum
      + ((fs.filter (fun f => !(f.side == "buy"))).map
          (fun f => f.quantity * f.price - f.commission)).sum ∧
    (∀ (pf : Portfolio) (f : FillEvent),
      (pf.update_position f.symbol f.side f.quantity f.price f.commission).cash =
        if f.side = "buy" then pf.cash - (f.quantity * f.price + f.commission)
        else pf.cash + (f.quantity * f.price - f.commission)) :=
  ⟨applyFills_cash (Portfolio.init ic) fs,
   fun pf f => update_position_cash pf f.symbol f.side f.quantity f.price f.commission⟩

/-- Claim C6: round-trip long. Buying `q` at `p1` then selling `q` at `p2`
from a flat position realizes `q*(p2−p1)` with final quantity 0 and final
average price 0. -/
theorem claim_C6_round_trip_long (s : String) (q p1 p2 : ℚ) (hq : 0 < q)
    (hp : p1 < p2) :
    ((((⟨s, 0, 0, 0, 0⟩ : Position).apply_fill "buy" q p1).apply_fill
        "sell" q p2).realized_pnl = q * (p2 - p1)) ∧
    ((((⟨s, 0, 0, 0, 0⟩ : Position).apply_fill "buy" q p1).apply_fill
        "sell" q p2).quantity = 0) ∧
    ((((⟨s, 0, 0, 0, 0⟩ : Position).apply_fill "buy" q p1).apply_fill
        "sell" q p2).avg_price = 0) := by
  have hq0 : q ≠ 0 := ne_of_gt hq
  have h1 : (⟨s, 0, 0, 0, 0⟩ : Position).apply_fill "buy" q p1 = ⟨s, q, p1, 0, q * p1⟩ := by
    simp only [Position.apply_fill, if_pos rfl]
    norm_num [hq0]
  have h2 : (⟨s, q, p1, 0, q * p1⟩ : Position).apply_fill "sell" q p2 =
      ⟨s, 0, 0, q * (p2 - p1), 0⟩ := by
    have hbs : ¬ ("sell" : String) = "buy" := by decide
    simp only [Position.apply_fill, if_neg hbs, if_pos hq]
    norm_num
  rw [h1, h2]
  exact ⟨rfl, rfl, rfl⟩

/-- Witness for C6 at q = 2, p1 = 3, p2 = 5. -/
theorem claim_C6_witness :
    (0 : ℚ) < 2 ∧ (3 : ℚ) < 5 ∧
    (((((⟨"A", 0, 0, 0, 0⟩ : Position).apply_fill "buy" 2 3).apply_fill
        "sell" 2 5).realized_pnl = 2 * (5 - 3)) ∧
     ((((⟨"A", 0, 0, 0, 0⟩ : Position).apply_fill "buy" 2 3).apply_fill
        "sell" 2 5).quantity = 0) ∧
     ((((⟨"A", 0, 0, 0, 0⟩ : Position).apply_fill "buy" 2 3).apply_fill
        "sell" 2 5).avg_price = 0)) :=
  ⟨by norm_num, by norm_num, claim_C6_round_trip_long "A" 2 3 5 (by norm_num) (by norm_num)⟩

/-- Claim C7: with an empty price map, every symbol falls back to its average
price, so `mark_to_market({})` coincides with `total_equity` on every
portfolio state. -/
theorem claim_C7_mtm_empty_eq_total_equity (pf : Portfolio) :
    pf.mark_to_market [] = pf.total_equity := rfl


theorem processOrders_eq (br : SimulatedBroker) (cb : Bar) (orders : List Order) :
    processOrders br cb orders =
      (orders.filter (keepsQueued cb),
       (orders.filter (willFill cb)).map (fun o => br.fill_order o (matchPrice cb o))) := by
  induction orders with
  | nil => rfl
  | cons o rest ih =>
    by_cases hst : o.status = OrderStatus.accepted
    · cases hot : o.order_type with
      | market =>
        have hk : keepsQueued cb o = false := by simp [keepsQueued, hot]
        have hw : willFill cb o = true := by simp [willFill, hst, hot]
        have hmp : matchPrice cb o = cb.close := by simp [matchPrice, hot]
        simp [processOrders, hst, hot, ih, List.filter_cons, hk, hw, hmp]
      | limit =>
        cases hlp : o.limit_price with
        | none =>
          have hk : keepsQueued cb o = true := by
            simp [keepsQueued, hst, hot, limitTriggered, hlp]
          have hw : willFill cb o = false := by
            simp [willFill, hot, limitTriggered, hlp]
          simp [processOrders, hst, hot, hlp, ih, List.filter_cons, hk, hw]
        | some lp =>
          by_cases htr : (o.side.value = "buy" ∧ cb.low ≤ lp) ∨
              (o.side.value = "sell" ∧ cb.high ≥ lp)
          · have hk : keepsQueued cb o = false := by
              simp only [keepsQueued, limitTriggered, hlp]
              rcases htr with ⟨h1, h2⟩ | ⟨h1, h2⟩ <;> simp [h1, h2]
            have hw : willFill cb o = true := by
              simp only [willFill, limitTriggered, hlp, hst]
              rcases htr with ⟨h1, h2⟩ | ⟨h1, h2⟩ <;> simp [h1, h2]
            have hmp : matchPrice cb o = lp := by simp [matchPrice, hot, hlp]
            simp [processOrders, hst, hot, hlp, htr, ih, List.filter_cons, hk, hw, hmp]
          · have htr2 : limitTriggered cb o = false := by
              simp only [limitTriggered, hlp]
              push_neg at htr
              by_cases hb : o.side.value = "buy"
              · have hs : ¬ o.side.value = "sell" := by
                  cases hsd : o.side <;> simp [Side.value, hsd] at hb ⊢
                simp [hb, hs, (htr.1 hb)]
              · by_cases hs : o.side.value = "sell"
                · simp [hb, hs, (htr.2 hs)]
                · simp [hb, hs]
            have hk : keepsQueued cb o = true := by
              simp [keepsQueued, hst, hot, htr2]
            have hw : willFill cb o = false := by
              simp [willFill, hot, htr2]
            simp [processOrders, hst, hot, hlp, htr, ih, List.filter_cons, hk, hw]
    · have hk : keepsQueued cb o = false := by simp [keepsQueued, hst]
      have hw : willFill cb o = false := by simp [willFill, hst]
      simp [processOrders, hst, ih, List.filter_cons, hk, hw]

theorem fill_order_no_slippage (br : SimulatedBroker) (hslip : br.slippage_bps = 0)
    (o : Order) (price : ℚ) :
    br.fill_order o price =
      ({ o with status := OrderStatus.filled },
       { fill_id := "", order_id := o.order_id.getD "", cl_ord_id := o.cl_ord_id,
         fill_price := price, fill_quantity := o.quantity, remaining_quantity := 0,
         commission := price * o.quantity * br.commission_rate }) := by
  unfold SimulatedBroker.fill_order
  rw [if_neg (by simp [hslip])]

/-- Claim C1 (amended): with zero slippage, `set_market_context(bar)` records
`bar` as the current quotable price (globally and for `bar.symbol`) and then
re-evaluates ALL queued orders against `bar`, regardless of the order's
symbol: a queued market order fills fully at `bar.close`; a queued limit buy
fills fully at its limit price iff `bar.low ≤ limit_price`; a queued limit
sell fills fully at its limit price iff `bar.high ≥ limit_price`; every other
queued order stays queued unchanged (hence still accepted); no order is ever
partially filled. In particular a queued limit buy at 100 stays queued on a
bar with `low > 100` and fills at exactly 100 on a bar with `low ≤ 100`. -/
theorem claim_C1_set_market_context (br : SimulatedBroker) (bar : Bar)
    (hslip : br.slippage_bps = 0) :
    ((br.set_current_bar bar).1.current_bar = some bar ∧
     (br.set_current_bar bar).1.current_bars.lookup bar.symbol = some bar) ∧
    ((br.set_current_bar bar).1.pending_orders =
       br.pending_orders.filter (keepsQueued bar)) ∧
    ((br.set_current_bar bar).2 =
       (br.pending_orders.filter (willFill bar)).map
         (fun o => ({ o with status := OrderStatus.filled },
           { fill_id := "", order_id := o.order_id.getD "", cl_ord_id := o.cl_ord_id,
             fill_price := matchPrice bar o, fill_quantity := o.quantity,
             remaining_quantity := 0,
             commission := matchPrice bar o * o.quantity * br.commission_rate }))) ∧
    (∀ of ∈ (br.set_current_bar bar).2,
        of.2.fill_quantity = of.1.quantity ∧ of.2.remaining_quantity = 0 ∧
        of.1.status = OrderStatus.filled) ∧
    (∀ o ∈ br.pending_orders, o.status = OrderStatus.accepted →
      o.order_type = OrderType.limit → o.side = Side.buy → o.limit_price = some 100 →
      ((100 < bar.low → o ∈ (br.set_current_bar bar).1.pending_orders) ∧
       (bar.low ≤ 100 →
         ({ o with status := OrderStatus.filled },
          { fill_id := "", order_id := o.order_id.getD "", cl_ord_id := o.cl_ord_id,
            fill_price := 100, fill_quantity := o.quantity, remaining_quantity := 0,
            commission := 100 * o.quantity * br.commission_rate })
           ∈ (br.set_current_bar bar).2))) := by
  have hbr : br.set_current_bar bar =
      ({ br with current_bar := some bar,
                 current_bars := setAssoc br.current_bars bar.symbol bar,
                 pending_orders := br.pending_orders.filter (keepsQueued bar) },
       (br.pending_orders.filter (willFill bar)).map
         (fun o => ({ o with status := OrderStatus.filled },
           { fill_id := "", order_id := o.order_id.getD "", cl_ord_id := o.cl_ord_id,
             fill_price := matchPrice bar o, fill_quantity := o.quantity,
             remaining_quantity := 0,
             commission := matchPrice bar o * o.quantity * br.commission_rate }))) := by
    unfold SimulatedBroker.set_current_bar SimulatedBroker.process_pending_orders
    dsimp only
    rw [processOrders_eq]
    dsimp only
    congr 1
    apply List.map_congr_left
    intro o ho
    exact fill_order_no_slippage _ hslip o (matchPrice bar o)
  have hlkset : ∀ (m : List (String × Bar)) (s : String) (b : Bar),
      (setAssoc m s b).lookup s = some b := by
    intro m s b
    induction m with
    | nil => simp [setAssoc, List.lookup]
    | cons p rest ih =>
      by_cases hk : p.1 = s
      · simp [setAssoc, hk, List.lookup]
      · have h2 : (s == p.1) = false := beq_eq_false_iff_ne.mpr (Ne.symm hk)
        simp [setAssoc, hk, List.lookup, h2, ih]
  rw [hbr]
  refine ⟨⟨rfl, hlkset _ _ _⟩, rfl, rfl, ?_, ?_⟩
  · intro of hof
    rcases List.mem_map.mp hof with ⟨o, ho, rfl⟩
    exact ⟨rfl, rfl, rfl⟩
  · intro o ho hst hot hsd hlp
    have htr : limitTriggered bar o = decide (bar.low ≤ 100) := by
      simp [limitTriggered, hlp, hsd, Side.value]
    have hmp : matchPrice bar o = 100 := by simp [matchPrice, hot, hlp]
    constructor
    · intro hlow
      have hk : keepsQueued bar o = true := by
        simp [keepsQueued, hst, hot, htr]
        linarith
      exact List.mem_filter.mpr ⟨ho, hk⟩
    · intro hlow
      have hw : willFill bar o = true := by
        simp [willFill, hst, hot, htr, hlow]
      refine List.mem_map.mpr ⟨o, List.mem_filter.mpr ⟨ho, hw⟩, ?_⟩
      rw [hmp]


/-- Counterexample to C1 as stated: a queued limit buy for symbol "AAA" at
limit 100 is matched — and filled at 100 — by a bar for the DIFFERENT symbol
"BBB" with low 99, instead of remaining queued as the claim requires for
orders whose symbol differs from `bar.symbol`. -/
theorem claim_C1_counterexample :
    ordC1x.symbol ≠ barC1x.symbol ∧
    (brC1x.set_current_bar barC1x).1.pending_orders = [] ∧
    ((brC1x.set_current_bar barC1x).2.map
      (fun of => (of.1.cl_ord_id, of.1.status, of.2.fill_price))) =
      [("o1", OrderStatus.filled, 100)] := by
  refine ⟨by decide, ?_, ?_⟩ <;> rfl


/-- Witness for C1 at a concrete broker and bar. -/
theorem claim_C1_witness :
    brC1w.slippage_bps = 0 ∧
    ((brC1w.set_current_bar barC1w).1.current_bar = some barC1w ∧
     (brC1w.set_current_bar barC1w).1.current_bars.lookup barC1w.symbol = some barC1w) :=
  ⟨rfl, (claim_C1_set_market_context brC1w barC1w rfl).1⟩

theorem cancelFirst_no_match {cl : String} {l : List Order}
    (h : ∀ o ∈ l, ¬(o.cl_ord_id = cl ∧ o.status = OrderStatus.accepted)) :
    cancelFirst cl l = (false, l) := by
  induction l with
  | nil => rfl
  | cons o rest ih =>
    rw [cancelFirst, if_neg (h o (by simp)), ih (fun o2 h2 => h o2 (List.mem_cons_of_mem o h2))]

theorem cancelFirst_first_match {cl : String} {l1 l2 : List Order} {o : Order}
    (h1 : ∀ o2 ∈ l1, ¬(o2.cl_ord_id = cl ∧ o2.status = OrderStatus.accepted))
    (ho : o.cl_ord_id = cl ∧ o.status = OrderStatus.accepted) :
    cancelFirst cl (l1 ++ o :: l2) =
      (true, l1 ++ { o with status := OrderStatus.cancelled } :: l2) := by
  induction l1 with
  | nil =>
    rw [List.nil_append, cancelFirst, if_pos ho, List.nil_append]
  | cons x rest ih =>
    rw [List.cons_append, cancelFirst, if_neg (h1 x (by simp)),
      ih (fun o2 h2 => h1 o2 (List.mem_cons_of_mem x h2)), List.cons_append]

theorem cancelFirst_bool {cl : String} (l : List Order) :
    (cancelFirst cl l).1 = true ↔
      ∃ o ∈ l, o.cl_ord_id = cl ∧ o.status = OrderStatus.accepted := by
  induction l with
  | nil => simp [cancelFirst]
  | cons o rest ih =>
    rw [cancelFirst]
    by_cases h : o.cl_ord_id = cl ∧ o.status = OrderStatus.accepted
    · rw [if_pos h]
      simp [h]
    · rw [if_neg h]
      simp only [List.mem_cons]
      constructor
      · intro hb
        rcases ih.mp hb with ⟨o2, h2, h3⟩
        exact ⟨o2, Or.inr h2, h3⟩
      · rintro ⟨o2, (rfl | h2), h3⟩
        · exact absurd h3 h
        · exact ih.mpr ⟨o2, h2, h3⟩

theorem exists_first_match {cl : String} {l : List Order}
    (h : ∃ o ∈ l, o.cl_ord_id = cl ∧ o.status = OrderStatus.accepted) :
    ∃ l1 o l2, l = l1 ++ o :: l2 ∧
      (∀ o2 ∈ l1, ¬(o2.cl_ord_id = cl ∧ o2.status = OrderStatus.accepted)) ∧
      o.cl_ord_id = cl ∧ o.status = OrderStatus.accepted := by
  induction l with
  | nil => simp at h
  | cons x rest ih =>
    by_cases hx : x.cl_ord_id = cl ∧ x.status = OrderStatus.accepted
    · exact ⟨[], x, rest, rfl, by simp, hx⟩
    · have h2 : ∃ o ∈ rest, o.cl_ord_id = cl ∧ o.status = OrderStatus.accepted := by
        rcases h with ⟨o, ho, hoc⟩
        rcases List.mem_cons.mp ho with rfl | ho2
        · exact absurd hoc hx
        · exact ⟨o, ho2, hoc⟩
      rcases ih h2 with ⟨l1, o, l2, heq, hcl, hoc⟩
      refine ⟨x :: l1, o, l2, by rw [heq]; rfl, ?_, hoc⟩
      intro o2 hm
      rcases List.mem_cons.mp hm with rfl | hm2
      · exact hx
      · exact hcl o2 hm2

/-- Claim C8: `cancel_order` on a still-queued accepted order (matched by
client order id) marks exactly the first such order cancelled and returns
true; with no queued accepted match it returns false and leaves the broker
state entirely unchanged; and — as long as at most one pending order matches
the id — a second cancel of the same order returns false. -/
theorem claim_C8_cancel_order (br : SimulatedBroker) (cl : String) :
    ((br.cancel_order cl).1 = true ↔
        ∃ o ∈ br.pending_orders, o.cl_ord_id = cl ∧ o.status = OrderStatus.accepted) ∧
    ((br.cancel_order cl).1 = false → (br.cancel_order cl).2 = br) ∧
    (∀ l1 o l2, br.pending_orders = l1 ++ o :: l2 →
        (∀ o2 ∈ l1, ¬(o2.cl_ord_id = cl ∧ o2.status = OrderStatus.accepted)) →
        o.cl_ord_id = cl → o.status = OrderStatus.accepted →
        (br.cancel_order cl).1 = true ∧
        (br.cancel_order cl).2.pending_orders =
          l1 ++ { o with status := OrderStatus.cancelled } :: l2) ∧
    ((br.pending_orders.filter (fun o => o.cl_ord_id == cl &&
        o.status == OrderStatus.accepted)).length ≤ 1 →
      (((br.cancel_order cl).2).cancel_order cl).1 = false) := by
  have hco : ∀ b2 : SimulatedBroker, b2.cancel_order cl =
      ((cancelFirst cl b2.pending_orders).1,
       { b2 with pending_orders := (cancelFirst cl b2.pending_orders).2 }) := fun _ => rfl
  refine ⟨?_, ?_, ?_, ?_⟩
  · rw [hco]
    exact cancelFirst_bool br.pending_orders
  · intro hfalse
    rw [hco] at hfalse ⊢
    dsimp only at hfalse ⊢
    by_cases h : ∃ o ∈ br.pending_orders, o.cl_ord_id = cl ∧ o.status = OrderStatus.accepted
    · rw [(cancelFirst_bool br.pending_orders).mpr h] at hfalse
      cases hfalse
    · push_neg at h
      rw [cancelFirst_no_match (fun o ho hoc => h o ho hoc.1 hoc.2)]
  · intro l1 o l2 heq hcl ho1 ho2
    rw [hco]
    dsimp only
    rw [heq, cancelFirst_first_match hcl ⟨ho1, ho2⟩]
    exact ⟨rfl, rfl⟩
  · intro hcount
    by_cases h : ∃ o ∈ br.pending_orders, o.cl_ord_id = cl ∧ o.status = OrderStatus.accepted
    · rcases exists_first_match h with ⟨l1, o, l2, heq, hclean, hoc⟩
      have hl1f : l1.filter (fun o => o.cl_ord_id == cl &&
          o.status == OrderStatus.accepted) = [] := by
        rw [List.filter_eq_nil_iff]
        intro o2 h2
        have := hclean o2 h2
        simp only [Bool.and_eq_true, beq_iff_eq]
        tauto
      have hl2f : ∀ o2 ∈ l2, ¬(o2.cl_ord_id = cl ∧ o2.status = OrderStatus.accepted) := by
        intro o2 h2 hoc2
        have hcnt : 2 ≤ (br.pending_orders.filter (fun o => o.cl_ord_id == cl &&
            o.status == OrderStatus.accepted)).length := by
          rw [heq, List.filter_append, List.filter_cons]
          have hob : (o.cl_ord_id == cl && (o.status == OrderStatus.accepted)) = true := by
            simp [hoc.1, hoc.2]
          rw [hl1f]
          simp only [hob, if_pos]
          have h2f : o2 ∈ l2.filter (fun o => o.cl_ord_id == cl &&
              o.status == OrderStatus.accepted) := by
            rw [List.mem_filter]
            exact ⟨h2, by simp [hoc2.1, hoc2.2]⟩
          have := List.length_pos.mpr (List.ne_nil_of_mem h2f)
          simp
          omega
        omega
      rw [hco, hco]
      dsimp only
      rw [heq, cancelFirst_first_match hclean hoc]
      dsimp only
      have hnm : ∀ o2 ∈ l1 ++ { o with status := OrderStatus.cancelled } :: l2,
          ¬(o2.cl_ord_id = cl ∧ o2.status = OrderStatus.accepted) := by
        intro o2 h2
        rcases List.mem_append.mp h2 with h3 | h3
        · exact hclean o2 h3
        · rcases List.mem_cons.mp h3 with rfl | h3
          · rintro ⟨_, hst⟩
            cases hst
          · exact hl2f o2 h3
      rw [cancelFirst_no_match hnm]
    · push_neg at h
      have hnm : cancelFirst cl br.pending_orders = (false, br.pending_orders) :=
        cancelFirst_no_match (fun o ho hoc => h o ho hoc.1 hoc.2)
      rw [hco, hco]
      dsimp only
      rw [hnm]
      dsimp only
      rw [hnm]


/-- Witness for C8: cancelling a queued accepted order succeeds, leaves it
cancelled, and a second cancel of the same id fails. -/
theorem claim_C8_witness :
    ((brC8w.cancel_order "c1").1 = true ∧
     (brC8w.cancel_order "c1").2.pending_orders =
       [] ++ { ordC8w with status := OrderStatus.cancelled } :: []) ∧
    (((brC8w.cancel_order "c1").2).cancel_order "c1").1 = false :=
  ⟨(claim_C8_cancel_order brC8w "c1").2.2.1 [] ordC8w [] rfl (by simp) rfl rfl,
   (claim_C8_cancel_order brC8w "c1").2.2.2 (by decide)⟩

/-- Claim C5 (amended): each `record` call updates the running peak as
`peak = max(peak, equity)` and stores
`drawdown = (peak − equity)/peak` (0 if `peak ≤ 0`) on the appended
EquityPoint; the peak is seeded with `initial_cash`, so the drawdown is
relative to the maximum of `initial_cash` and the recorded equities so far —
for a tracker whose `initial_cash` does not exceed the peak of the recorded
sequence, e.g. `initial_cash = 100`, recording `[100, 110, 99, 105]` yields
`max_drawdown = (110 − 99)/110 = 1/10` exactly. -/
theorem claim_C5_drawdown :
    (∀ (t : PerformanceTracker) (ts : Int) (e c pv : ℚ),
      (t.record ts e c pv).peak_equity = max t.peak_equity e ∧
      (t.record ts e c pv).equity_curve = t.equity_curve ++
        [{ timestamp := ts, equity := e, cash := c, positions_value := pv,
           drawdown := if max t.peak_equity e > 0
             then (max t.peak_equity e - e) / max t.peak_equity e else 0 }]) ∧
    ((((((PerformanceTracker.init 100 252).record 0 100 100 0).record 1 110 110 0).record
        2 99 99 0).record 3 105 105 0).max_drawdown = 1 / 10) := by
  constructor
  · intro t ts e c pv
    have hmax : (if e > t.peak_equity then e else t.peak_equity) = max t.peak_equity e := by
      rcases le_or_lt e t.peak_equity with h | h
      · rw [if_neg (not_lt.mpr h), max_eq_left h]
      · rw [if_pos h, max_eq_right (le_of_lt h)]
    constructor
    · simp only [PerformanceTracker.record]
      rw [hmax]
    · simp only [PerformanceTracker.record]
      rw [hmax]
  · norm_num [PerformanceTracker.max_drawdown, PerformanceTracker.record,
      PerformanceTracker.init, max_def]

/-- Counterexample to C5 as stated: with the default `initial_cash = 100000`
the running peak starts at 100000, so the drawdown is NOT relative only to
the running peak of the recorded equity sequence — recording
`[100, 110, 99, 105]` yields `max_drawdown = 99901/100000`, not `1/10`. -/
theorem claim_C5_counterexample :
    ((((((PerformanceTracker.init 100000 252).record 0 100 100 0).record 1 110 110 0).record
        2 99 99 0).record 3 105 105 0).max_drawdown = 99901 / 100000) ∧
    ¬((((((PerformanceTracker.init 100000 252).record 0 100 100 0).record 1 110 110 0).record
        2 99 99 0).record 3 105 105 0).max_drawdown = 1 / 10) := by
  constructor <;>
    norm_num [PerformanceTracker.max_drawdown, PerformanceTracker.record,
      PerformanceTracker.init, max_def]

/-- Claim C9 (amended): `summary()` returns exactly the keys
`total_return, max_drawdown, sharpe_ratio, sortino_ratio, win_rate, num_bars`
(the point-count key is named `num_bars`, not `num_points`), where `num_bars`
is the number of recorded equity points and every other entry equals the
corresponding metric function's value. -/
theorem claim_C9_summary (sqrt : ℚ → ℚ) (t : PerformanceTracker) :
    ((PerformanceTracker.summary sqrt t).map Prod.fst =
      ["total_return", "max_drawdown", "sharpe_ratio", "sortino_ratio", "win_rate",
       "num_bars"]) ∧
    (PerformanceTracker.summary sqrt t).lookup "total_return" =
      some (.val t.total_return) ∧
    (PerformanceTracker.summary sqrt t).lookup "max_drawdown" =
      some (.val t.max_drawdown) ∧
    (PerformanceTracker.summary sqrt t).lookup "sharpe_ratio" =
      some (.val (PerformanceTracker.sharpe_ratio sqrt t)) ∧
    (PerformanceTracker.summary sqrt t).lookup "sortino_ratio" =
      some (PerformanceTracker.sortino_ratio sqrt t) ∧
    (PerformanceTracker.summary sqrt t).lookup "win_rate" =
      some (.val t.win_rate) ∧
    (PerformanceTracker.summary sqrt t).lookup "num_bars" =
      some (.val (t.equity_curve.length : ℚ)) :=
  ⟨rfl, rfl, rfl, rfl, rfl, rfl, rfl⟩

/-- Counterexample to C9 as stated: the key set contains `num_bars` and no
`num_points`. -/
theorem claim_C9_counterexample :
    ((PerformanceTracker.summary (fun _ => 0) (PerformanceTracker.init 100 252)).map
        Prod.fst =
      ["total_return", "max_drawdown", "sharpe_ratio", "sortino_ratio", "win_rate",
       "num_bars"]) ∧
    "num_points" ∉ ((PerformanceTracker.summary (fun _ => 0)
        (PerformanceTracker.init 100 252)).map Prod.fst) :=
  ⟨rfl, by decide⟩

theorem recordAll_returns_length (calls : List (Int × ℚ × ℚ × ℚ))
    (hpos : ∀ x ∈ calls, 0 < x.2.1) :
    ∀ t : PerformanceTracker, 0 < t.prev_equity →
      (t.recordAll calls).returns.length = t.returns.length + calls.length := by
  induction calls with
  | nil => intro t _; rfl
  | cons x rest ih =>
    intro t ht
    have hstep : (t.record x.1 x.2.1 x.2.2.1 x.2.2.2).returns =
        t.returns ++ [(x.2.1 - t.prev_equity) / t.prev_equity] := by
      simp only [PerformanceTracker.record]
      rw [if_pos ht]
    have hprev : (t.record x.1 x.2.1 x.2.2.1 x.2.2.2).prev_equity = x.2.1 := rfl
    have hrec : t.recordAll (x :: rest) =
        (t.record x.1 x.2.1 x.2.2.1 x.2.2.2).recordAll rest := rfl
    rw [hrec, ih (fun y hy => hpos y (List.mem_cons_of_mem x hy)) _
      (by rw [hprev]; exact hpos x (by simp))]
    rw [hstep]
    simp [List.length_append]
    omega

/-- Claim C10 (implicit): the tracker's previous-equity reference starts at
`initial_cash`, so the very first `record` call with positive equity (and
positive initial cash) already appends the return
`(equity − initial_cash)/initial_cash`; after `n` record calls with all
equities positive the internal return series has length `n` (not `n − 1`);
and with only 2 recorded equity points the Sharpe ratio can already be
nonzero (for any square root positive on positives). -/
theorem claim_C10_first_return (c : ℚ) (hc : 0 < c) (e : ℚ) (he : 0 < e)
    (calls : List (Int × ℚ × ℚ × ℚ)) (hpos : ∀ x ∈ calls, 0 < x.2.1) :
    (((PerformanceTracker.init c 252).record 0 e e 0).returns = [(e - c) / c]) ∧
    (((PerformanceTracker.init c 252).recordAll calls).returns.length = calls.length) ∧
    (∀ sqrt : ℚ → ℚ, (∀ x : ℚ, 0 < x → 0 < sqrt x) →
      (PerformanceTracker.sharpe_ratio sqrt
        (((PerformanceTracker.init 100 252).record 0 110 110 0).record 1 115 115 0) ≠ 0) ∧
      ((((PerformanceTracker.init 100 252).record 0 110 110 0).record
        1 115 115 0).equity_curve.length = 2)) := by
  refine ⟨?_, ?_, ?_⟩
  · simp only [PerformanceTracker.record, PerformanceTracker.init]
    rw [if_pos hc]
    rfl
  · have h := recordAll_returns_length calls hpos (PerformanceTracker.init c 252) hc
    simpa [PerformanceTracker.init] using h
  · intro sqrt hs
    constructor
    · have hret : ((((PerformanceTracker.init 100 252).record 0 110 110 0).record
          1 115 115 0)).returns = [1/10, 1/22] := by
        norm_num [PerformanceTracker.record, PerformanceTracker.init]
      have hppy : ((((PerformanceTracker.init 100 252).record 0 110 110 0).record
          1 115 115 0)).periods_per_year = 252 := rfl
      unfold PerformanceTracker.sharpe_ratio
      rw [hret, hppy]
      norm_num
      exact ⟨ne_of_gt (hs _ (by norm_num)), ne_of_gt (hs _ (by norm_num))⟩
    · rfl

/-- Witness for C10 at initial cash 100, first equity 105, and a concrete
two-call sequence; the abstract square root is instantiated with the
identity, which is positive on positives. -/
theorem claim_C10_witness :
    ((0 : ℚ) < 100 ∧ (0 : ℚ) < 105 ∧
      (∀ x ∈ [((0 : Int), (110 : ℚ), (110 : ℚ), (0 : ℚ)), (1, 115, 115, 0)], 0 < x.2.1)) ∧
    (((PerformanceTracker.init 100 252).record 0 105 105 0).returns = [(105 - 100) / 100]) ∧
    (((PerformanceTracker.init 100 252).recordAll
        [((0 : Int), (110 : ℚ), (110 : ℚ), (0 : ℚ)), (1, 115, 115, 0)]).returns.length = 2) ∧
    (PerformanceTracker.sharpe_ratio id
      (((PerformanceTracker.init 100 252).record 0 110 110 0).record 1 115 115 0) ≠ 0) :=
  ⟨⟨by norm_num, by norm_num, by decide⟩,
   (claim_C10_first_return 100 (by norm_num) 105 (by norm_num) [] (by simp)).1,
   (claim_C10_first_return 100 (by norm_num) 105 (by norm_num)
     [((0 : Int), (110 : ℚ), (110 : ℚ), (0 : ℚ)), (1, 115, 115, 0)] (by decide)).2.1,
   ((claim_C10_first_return 100 (by norm_num) 105 (by norm_num) [] (by simp)).2.2 id
     (fun x hx => hx)).1⟩


/-- Witness for C4: two instruments with 3 and 2 bars and one shared
timestamp. -/
theorem claim_C4_witness :
    ((feedsC4w.map Prod.fst).Nodup ∧
      (∀ p ∈ feedsC4w, List.Sorted (· < ·) (p.2.map Bar.timestamp))) ∧
    (List.Chain' (· < ·) ((iter_bars_sync feedsC4w).map Prod.fst) ∧
     (iter_bars_sync feedsC4w).length =
       ((feedsC4w.map (fun p => p.2.map Bar.timestamp)).flatten).toFinset.card ∧
     (∀ t m, (t, m) ∈ iter_bars_sync feedsC4w → ∀ s b2,
        ((s, b2) ∈ m ↔ ∃ l, (s, l) ∈ feedsC4w ∧ b2 ∈ l ∧ b2.timestamp = t))) :=
  ⟨⟨by decide, by decide⟩, claim_C4_synchronizer feedsC4w (by decide) (by decide)⟩
